import Mathlib

/-!
# Verification of the hive-ecs core against its specification

This development shallowly embeds the core data structures and operations of
the hive-ecs entity-component-system runtime: the sparse storage layer
(`core/storage.rs`), change-frame stamps, archetype tables
(`archetype/table.rs`), the archetype registry (`world/archetype/mod.rs`),
the entity allocator (`core/mod.rs`), the resource store
(`world/resource.rs`), the query filters (`system/query.rs`) and the
schedule builder (`system/schedule.rs`, `system/executor/*.rs`).

Rust mutation is translated to explicit state passing; a Rust `panic!` or a
panicking slice index is translated to an `Option`/outer-`none` result;
machine integers (`u32`, `usize`) are translated to `Nat` (the spec declares
frame wrap-around a non-goal, and ids are dense small integers).

A few items referenced by the sources are not present in the provided
source tree (`core/frame.rs` with `Frame`/`ObjectTracker`, the
`IndexDag` type used by `Schedule`, `SystemNode::has_dependency`, and the
grown bitset `core::bitset::FixedBitSet`); those are modelled from the
specification text and are marked `Modelled from the spec:` in their doc
comments.
-/

namespace HiveEcs

/-! ## List helpers

`Vec::swap_remove` semantics: replace the element at `i` with the last
element and pop.  Returns `none` exactly when the Rust call would panic
(index out of bounds). -/

/-- `Vec::swap_remove(i)`: the removed element together with the remaining
vector, or `none` when `i` is out of bounds (a Rust panic). -/
def listSwapRemove (l : List α) (i : Nat) : Option (α × List α) :=
  match l[i]?, l.getLast? with
  | some x, some last => some (x, (l.set i last).dropLast)
  | _, _ => none

/-! ## `core/storage.rs`: sparse arrays and sparse sets

Sparse keys (`SparseIndex`) are embedded as `Nat` (the trait converts to and
from `usize`).  Mutating Rust methods become functions returning the new
state; a method that can panic returns an outer `Option` whose `none` is the
panic. -/

/-- `SparseArray<I, V>`: a growable vector of optional slots. -/
structure SparseArray (V : Type) where
  values : List (Option V)
deriving Repr, DecidableEq

namespace SparseArray

def new : SparseArray V := ⟨[]⟩

def len (a : SparseArray V) : Nat := a.values.length

/-- `insert`: resize with `None` up to `index + 1` if needed, then fill the slot. -/
def insert (a : SparseArray V) (index : Nat) (value : V) : SparseArray V :=
  let grown := if index ≥ a.values.length
    then a.values ++ List.replicate (index + 1 - a.values.length) none
    else a.values
  ⟨grown.set index (some value)⟩

/-- `get`: the slot's content when `index` is in bounds, `None` otherwise. -/
def get (a : SparseArray V) (index : Nat) : Option V :=
  a.values.getD index none

/-- `remove`: `Option::take` on an in-bounds slot; out of bounds returns `None`
and leaves the array unchanged. -/
def remove (a : SparseArray V) (index : Nat) : Option V × SparseArray V :=
  if index < a.values.length then (a.values.getD index none, ⟨a.values.set index none⟩)
  else (none, a)

def contains (a : SparseArray V) (index : Nat) : Bool :=
  (a.values.getD index none).isSome

/-- `get_mut(index).map(|x| *x = v)`: overwrite the slot only when it is
currently occupied and in bounds. -/
def update (a : SparseArray V) (index : Nat) (value : V) : SparseArray V :=
  if (a.get index).isSome then ⟨a.values.set index (some value)⟩ else a

end SparseArray

/-- `ImmutableSparseArray<I, V>`: the frozen (boxed-slice) variant. -/
structure ImmutableSparseArray (V : Type) where
  values : List (Option V)
deriving Repr, DecidableEq

namespace ImmutableSparseArray

def len (a : ImmutableSparseArray V) : Nat := a.values.length

/-- `get`: `self.values.get(index).and_then(|v| v.as_ref())`. -/
def get (a : ImmutableSparseArray V) (index : Nat) : Option V :=
  (a.values[index]?).bind id

/-- `contains`: `self.values.get(index).is_some()` — note this tests only that
`index` is within the slot slice, not that the slot is occupied. -/
def contains (a : ImmutableSparseArray V) (index : Nat) : Bool :=
  (a.values[index]?).isSome

/-- `From<SparseArray<I, V>>`. -/
def ofSparseArray (a : SparseArray V) : ImmutableSparseArray V := ⟨a.values⟩

end ImmutableSparseArray

/-- `SparseSet<I, V>`: dense values and keys plus a sparse index array. -/
structure SparseSet (V : Type) where
  values : List V
  indices : List Nat
  sparse : SparseArray Nat
deriving Repr, DecidableEq

namespace SparseSet

def new : SparseSet V := ⟨[], [], SparseArray.new⟩

def len (s : SparseSet V) : Nat := s.values.length

def is_empty (s : SparseSet V) : Bool := s.values.isEmpty

/-- `get`: look up the dense index, then read the dense vector
(`&self.values[*index]`; the out-of-bounds panic is mapped to `none`). -/
def get (s : SparseSet V) (index : Nat) : Option V :=
  (s.sparse.get index).bind fun i => s.values[i]?

/-- `insert`: replace in place when the key is present (returning the old
value), otherwise append to the dense vectors and record the dense index.
Outer `none` is the `self.values[*index]` panic on a corrupt set. -/
def insert (s : SparseSet V) (index : Nat) (value : V) :
    Option (Option V × SparseSet V) :=
  match s.sparse.get index with
  | some i =>
    match s.values[i]? with
    | some old => some (some old, ⟨s.values.set i value, s.indices, s.sparse⟩)
    | none => none
  | none =>
    some (none, ⟨s.values ++ [value], s.indices ++ [index],
      s.sparse.insert index s.values.length⟩)

/-- `remove`: take the dense index out of the sparse array, swap-remove the
dense entries, and re-point the sparse entry of the element that was swapped
into the hole.  Outer `none` is a swap-remove / `self.indices[index]` panic. -/
def remove (s : SparseSet V) (index : Nat) : Option (Option V × SparseSet V) :=
  match s.sparse.remove index with
  | (none, sparse') => some (none, { s with sparse := sparse' })
  | (some i, sparse') =>
    match listSwapRemove s.values i, listSwapRemove s.indices i with
    | some (v, values'), some (_, indices') =>
      if i = values'.length then
        some (some v, ⟨values', indices', sparse'⟩)
      else
        match indices'[i]? with
        | some last_index =>
          some (some v, ⟨values', indices', sparse'.update last_index i⟩)
        | none => none
    | _, _ => none

/-- `remove_at`: swap-remove the dense entries at a dense position and
re-point the sparse entry of the moved element.  The sparse entry of the
*removed* key is not touched. -/
def remove_at (s : SparseSet V) (index : Nat) :
    Option (Option (Nat × V) × SparseSet V) :=
  if index ≥ s.values.length then some (none, s)
  else
    match listSwapRemove s.values index, listSwapRemove s.indices index with
    | some (v, values'), some (k, indices') =>
      if index = values'.length then
        some (some (k, v), ⟨values', indices', s.sparse⟩)
      else
        match indices'[index]? with
        | some last_index =>
          some (some (k, v), ⟨values', indices', s.sparse.update last_index index⟩)
        | none => none
    | _, _ => none

def contains (s : SparseSet V) (index : Nat) : Bool :=
  s.sparse.contains index

/-- `iter` / `drain`: the key-value pairs in dense order. -/
def pairs (s : SparseSet V) : List (Nat × V) :=
  s.indices.zip s.values

/-- `FromIterator`: insert every pair in order (outer `none` is a panic in
some insert, impossible from the empty set). -/
def fromList (l : List (Nat × V)) : Option (SparseSet V) :=
  l.foldlM (fun s kv => (s.insert kv.1 kv.2).map Prod.snd) SparseSet.new

/-- The sparse-set coherence invariant stated in the specification: the dense
vectors agree in length, every dense position is indexed by its key's sparse
entry, and every sparse entry points back at its key (so
`values[sparse[k]] = v` for every present key `k`). -/
def wfb (s : SparseSet V) : Bool :=
  (s.indices.length == s.values.length) &&
  (List.range s.indices.length).all
    (fun i => s.sparse.get (s.indices.getD i 0) == some i) &&
  (List.range s.sparse.values.length).all
    (fun k => match s.sparse.get k with
      | some j => s.indices[j]? == some k
      | none => true)

end SparseSet

/-- `ImmutableSparseSet<I, V>`: the frozen variant used for a table's columns. -/
structure ImmutableSparseSet (V : Type) where
  values : List V
  indices : List Nat
  sparse : ImmutableSparseArray Nat
deriving Repr, DecidableEq

namespace ImmutableSparseSet

def get (s : ImmutableSparseSet V) (index : Nat) : Option V :=
  (s.sparse.get index).bind fun i => s.values[i]?

/-- `contains`: delegates to `ImmutableSparseArray::contains` (the bounds
check). -/
def contains (s : ImmutableSparseSet V) (index : Nat) : Bool :=
  s.sparse.contains index

def len (s : ImmutableSparseSet V) : Nat := s.values.length

/-- `From<SparseSet<I, V>>`. -/
def ofSparseSet (s : SparseSet V) : ImmutableSparseSet V :=
  ⟨s.values, s.indices, ImmutableSparseArray.ofSparseArray s.sparse⟩

end ImmutableSparseSet

/-! ## Change frames (`core/frame.rs`) and entities (`core/mod.rs`) -/

/-- `Frame`: the world's logical tick counter, a `u32` starting at 1
(wrap-around is a declared non-goal, so `Nat` is used).  The source file
`core/frame.rs` is not in the provided tree; the type is modelled from the
specification's data model table. -/
abbrev Frame := Nat

namespace Frame

/-- Modelled from the spec: `Frame::ZERO` is never equal to any real frame. -/
def zero : Frame := 0

/-- Modelled from the spec (the `core/frame.rs` source is absent):
`is_newer(stamp, system_last, current) ⇔ system_last < stamp ≤ current`,
called in the query code as `stamp.is_newer(current_frame, system_frame)`. -/
def is_newer (stamp current system : Frame) : Bool :=
  decide (system < stamp) && decide (stamp ≤ current)

end Frame

/-- `ObjectTracker` (also referred to as `ObjectStatus`): the per-cell change
stamp `{added, modified}`.  Modelled from the spec's `ChangeStamp` (the
`core/frame.rs` source is absent). -/
structure ObjectTracker where
  added : Frame
  modified : Frame
deriving Repr, DecidableEq

namespace ObjectTracker

/-- Modelled from the spec: a tracker constructed without a frame argument
can only hold the sentinel `Frame::ZERO` in both fields, the value the spec
says never equals any real frame. -/
def new : ObjectTracker := ⟨Frame.zero, Frame.zero⟩

end ObjectTracker

/-- `Entity`: `(id, generation)`; equal only when both fields match. -/
structure Entity where
  id : Nat
  generation : Nat
deriving Repr, DecidableEq

namespace Entity

def root (id : Nat) : Entity := ⟨id, 0⟩

end Entity

/-- `ComponentId`: dense `u32` issued at first registration. -/
abbrev ComponentId := Nat

/-! ## `archetype/table.rs`: cells, columns, rows, tables

A `BlobCell`'s type-erased payload is embedded as a single `Nat`; the layout
and drop-function bookkeeping of `core/blob.rs` carries no information
relevant to the claims (all cells in play have the same layout). -/

/-- `TableCell`: one stored component value plus its change stamp. -/
structure TableCell where
  data : Nat
  frame : ObjectTracker
deriving Repr, DecidableEq

namespace TableCell

/-- `TableCell::new`: wraps the value with a default `ObjectTracker::new()`. -/
def new (value : Nat) : TableCell := ⟨value, ObjectTracker.new⟩

/-- `TableCell::with_frame`: stamps both `added` and `modified` with `frame`. -/
def with_frame (value : Nat) (frame : Frame) : TableCell := ⟨value, ⟨frame, frame⟩⟩

/-- `TableCell::add`: sets only the `added` stamp. -/
def add (c : TableCell) (frame : Frame) : TableCell :=
  { c with frame := { c.frame with added := frame } }

/-- `TableCell::modify`: sets only the `modified` stamp. -/
def modify (c : TableCell) (frame : Frame) : TableCell :=
  { c with frame := { c.frame with modified := frame } }

end TableCell

/-- `Column`: a type-erased buffer (`Blob`) plus the parallel vector of
change stamps. -/
structure Column where
  data : List Nat
  frames : List ObjectTracker
deriving Repr, DecidableEq

namespace Column

def len (c : Column) : Nat := c.data.length

/-- `push_cell`: append the payload and the stamp. -/
def push_cell (c : Column) (cell : TableCell) : Column :=
  ⟨c.data ++ [cell.data], c.frames ++ [cell.frame]⟩

/-- `swap_remove`: checked swap-remove on the payload buffer (inner `none`
when out of bounds, the column unchanged), then `Vec::swap_remove` on the
stamps (outer `none` models its panic on a misaligned column). -/
def swap_remove (c : Column) (index : Nat) : Option (Option TableCell × Column) :=
  if index ≥ c.data.length then some (none, c)
  else
    match listSwapRemove c.data index, listSwapRemove c.frames index with
    | some (d, data'), some (f, frames') => some (some ⟨d, f⟩, ⟨data', frames'⟩)
    | _, _ => none

/-- `From<TableCell>`: a one-row column. -/
def ofCell (cell : TableCell) : Column := ⟨[cell.data], [cell.frame]⟩

end Column

/-- `Row`: a transient bag of components keyed by `ComponentId`
(`SparseSet<ComponentId, TableCell>`). -/
abbrev Row := SparseSet TableCell

namespace Row

def new : Row := SparseSet.new

/-- `Row::insert_cell` (the replaced cell is returned by the source and
dropped by every caller). -/
def insert_cell (r : Row) (id : ComponentId) (cell : TableCell) : Option Row :=
  (r.insert id cell).map Prod.snd

/-- `Row::get_cell`. -/
def get_cell (r : Row) (id : ComponentId) : Option TableCell :=
  r.get id

/-- `Row::contains`. -/
def contains_id (r : Row) (id : ComponentId) : Bool :=
  SparseSet.contains r id

/-- `Row::ids`. -/
def ids (r : Row) : List ComponentId := r.indices

/-- `Row::remove`. -/
def remove_id (r : Row) (id : ComponentId) : Option (Option TableCell × Row) :=
  SparseSet.remove r id

end Row

/-- `Table`: an ordered entity index (`IndexSet<Entity>`, embedded as a
duplicate-free list) and one frozen column per component. -/
structure Table where
  entities : List Entity
  columns : ImmutableSparseSet Column
deriving Repr, DecidableEq

/-- The per-column loop of `Table::add_entity`: pull each column's cell out
of the row and push it; a missing id is the source's
`panic!("Row does not contain all columns ...")`. -/
def tableAddCells : List (ComponentId × Column) → Row → Option (List Column)
  | [], _ => some []
  | (id, col) :: rest, row =>
    match row.remove_id id with
    | some (some cell, row') => (tableAddCells rest row').map (col.push_cell cell :: ·)
    | some (none, _) => none
    | none => none

/-- The per-column loop of `Table::remove_entity`: swap-remove each column's
cell at the entity's row position and collect it into the row bag (a column
whose checked removal misses leaves the column unchanged and contributes
nothing, as in the source). -/
def tableRemoveCells : List (ComponentId × Column) → Nat → Row →
    Option (List Column × Row)
  | [], _, row => some ([], row)
  | (id, col) :: rest, idx, row =>
    match col.swap_remove idx with
    | some (some cell, col') =>
      match row.insert_cell id cell with
      | some row' =>
        (tableRemoveCells rest idx row').map fun p => (col' :: p.1, p.2)
      | none => none
    | some (none, col') =>
      (tableRemoveCells rest idx row).map fun p => (col' :: p.1, p.2)
    | none => none

namespace Table

/-- `TableBuilder::new().build()`: the empty table. -/
def empty : Table := ⟨[], ImmutableSparseSet.ofSparseSet SparseSet.new⟩

/-- `Table::add_entity`: insert into the entity index (`IndexSet::insert`
appends only when absent) and push one cell per column. -/
def add_entity (t : Table) (e : Entity) (row : Row) : Option Table :=
  let entities := if t.entities.contains e then t.entities else t.entities ++ [e]
  let zipped := t.columns.indices.zip t.columns.values
  (tableAddCells zipped row).map fun values' =>
    { entities := entities,
      columns := { t.columns with
        values := values' ++ t.columns.values.drop zipped.length } }

/-- `Table::remove_entity`: locate the entity, swap-remove it from the index
and from every column; inner `none` when the entity is absent. -/
def remove_entity (t : Table) (e : Entity) : Option (Option (Row × Table)) :=
  match t.entities.findIdx? (· == e) with
  | none => some none
  | some idx =>
    match listSwapRemove t.entities idx with
    | none => none
    | some (_, entities') =>
      let zipped := t.columns.indices.zip t.columns.values
      (tableRemoveCells zipped idx Row.new).map fun p =>
        some (p.2,
          { entities := entities',
            columns := { t.columns with
              values := p.1 ++ t.columns.values.drop zipped.length } })

/-- `Table::get_entity_row`. -/
def get_entity_row (t : Table) (e : Entity) : Option Nat :=
  t.entities.findIdx? (· == e)

/-- `Table::get_column`. -/
def get_column (t : Table) (id : ComponentId) : Option Column :=
  t.columns.get id

/-- `Table::has_component`: delegates to the frozen sparse set's `contains`. -/
def has_component (t : Table) (id : ComponentId) : Bool :=
  t.columns.contains id

end Table

/-- `Row::into_table`: drain the bag into one single-cell column per
component and seed the entity index with `entity`. -/
def Row.into_table (r : Row) (entity : Entity) : Option Table :=
  (SparseSet.fromList (r.pairs.map fun p => (p.1, Column.ofCell p.2))).map
    fun columns => ⟨[entity], ImmutableSparseSet.ofSparseSet columns⟩

/-! ## Association-list embedding of `HashMap` fields

`HashMap::insert` replaces the existing entry or appends; `remove` takes the
entry out.  Keys are unique by construction. -/

def alistLookup [DecidableEq κ] : List (κ × ν) → κ → Option ν
  | [], _ => none
  | (k, v) :: rest, key => if k = key then some v else alistLookup rest key

def alistInsert [DecidableEq κ] : List (κ × ν) → κ → ν → List (κ × ν)
  | [], key, value => [(key, value)]
  | (k, v) :: rest, key, value =>
    if k = key then (key, value) :: rest else (k, v) :: alistInsert rest key value

def alistRemove [DecidableEq κ] : List (κ × ν) → κ → Option (ν × List (κ × ν))
  | [], _ => none
  | (k, v) :: rest, key =>
    if k = key then some (v, rest)
    else (alistRemove rest key).map fun p => (p.1, (k, v) :: p.2)

/-! ## `core::bitset::FixedBitSet` and the component registry -/

/-- Modelled from the spec (the `core::bitset::FixedBitSet` source is
absent): a growable bit vector over component ids, with `set` growing on
demand like the sibling `Bitset` in `core/bitset.rs`, `is_superset`
(`self ⊇ other`) and `is_disjoint` as used by `Archetypes::query`. -/
structure FixedBitSet where
  bits : List Bool
deriving Repr, DecidableEq

namespace FixedBitSet

def new : FixedBitSet := ⟨[]⟩

def get (b : FixedBitSet) (i : Nat) : Bool := b.bits.getD i false

def grow (b : FixedBitSet) (n : Nat) : FixedBitSet :=
  if n ≤ b.bits.length then b
  else ⟨b.bits ++ List.replicate (n - b.bits.length) false⟩

def set (b : FixedBitSet) (i : Nat) (v : Bool) : FixedBitSet :=
  ⟨(b.grow (i + 1)).bits.set i v⟩

/-- `self.is_superset(other)`: every bit of `other` is set in `self`. -/
def is_superset (b other : FixedBitSet) : Bool :=
  (List.range other.bits.length).all fun i => !other.get i || b.get i

/-- `self.is_disjoint(other)`: no bit is set in both. -/
def is_disjoint (b other : FixedBitSet) : Bool :=
  (List.range b.bits.length).all fun i => !(b.get i && other.get i)

end FixedBitSet

/-- `ComponentMeta`: only the id carries information in the embedding (the
Rust name and layout are reflection data with no bearing on the claims). -/
structure ComponentMeta where
  id : ComponentId
deriving Repr, DecidableEq

/-- `Components`: dense metas plus a `TypeId → ComponentId` map.  Rust
`TypeId`s are embedded as `Nat`. -/
structure Components where
  components : List ComponentMeta
  map : List (Nat × ComponentId)
deriving Repr, DecidableEq

namespace Components

def new : Components := ⟨[], []⟩

/-- `Components::register`: return the existing id or issue the next dense
one. -/
def register (c : Components) (ty : Nat) : ComponentId × Components :=
  match alistLookup c.map ty with
  | some id => (id, c)
  | none =>
    let id := c.components.length
    (id, ⟨c.components ++ [⟨id⟩], alistInsert c.map ty id⟩)

/-- `Components::get_id`. -/
def get_id (c : Components) (ty : Nat) : Option ComponentId :=
  alistLookup c.map ty

end Components

/-! ## `world/archetype/mod.rs`: archetypes and the registry -/

abbrev ArchetypeId := Nat

/-- The registry-level query input (`ArchetypeQuery`). -/
structure ArchetypeQuery where
  components : List ComponentId
  exclude : List ComponentId
deriving Repr, DecidableEq

def ArchetypeQuery.default : ArchetypeQuery := ⟨[], []⟩

structure Archetype where
  id : ArchetypeId
  table : Table
  bitset : FixedBitSet
deriving Repr, DecidableEq

namespace Archetype

/-- `Archetype::has_component_id`: delegates to `Table::has_component`. -/
def has_component_id (a : Archetype) (id : ComponentId) : Bool :=
  a.table.has_component id

end Archetype

/-- `Archetypes`: the registry.  `archetype_map` is keyed by the sorted
component-id set. -/
structure Archetypes where
  archetypes : List Archetype
  archetype_map : List (List ComponentId × ArchetypeId)
  entity_map : List (Entity × ArchetypeId)
  components : Components
  bitset : FixedBitSet
deriving Repr, DecidableEq

/-- Insertion sort on component ids (`ids.sort()` before the archetype-map
lookup). -/
def insertNat (x : Nat) : List Nat → List Nat
  | [] => [x]
  | y :: ys => if x ≤ y then x :: y :: ys else y :: insertNat x ys

def sortNat (l : List Nat) : List Nat := l.foldr insertNat []

namespace Archetypes

/-- `Archetypes::new`: one empty archetype, registered under the empty id
set. -/
def new : Archetypes :=
  ⟨[⟨0, Table.empty, FixedBitSet.new⟩], [([], 0)], [], Components.new, FixedBitSet.new⟩

/-- `Archetypes::register`: register the component and grow the id bitset. -/
def register (A : Archetypes) (ty : Nat) : ComponentId × Archetypes :=
  let p := A.components.register ty
  (p.1, { A with components := p.2, bitset := A.bitset.grow (p.1 + 1) })

/-- `Archetypes::query`: archetypes whose bitset is a superset of the
include set and disjoint from the exclude set, in creation order. -/
def query (A : Archetypes) (q : ArchetypeQuery) : List Archetype :=
  let incl := q.components.foldl (fun b id => b.set id true) A.bitset
  let excl := q.exclude.foldl (fun b id => b.set id true) A.bitset
  A.archetypes.filter fun a => a.bitset.is_superset incl && excl.is_disjoint a.bitset

/-- `Archetypes::add_entity`: place a brand-new entity in the empty
archetype; a known entity is left where it is. -/
def add_entity (A : Archetypes) (e : Entity) : Option (ArchetypeId × Archetypes) :=
  match alistLookup A.entity_map e with
  | some id => some (id, A)
  | none =>
    match A.archetypes[0]? with
    | none => none
    | some arch =>
      (arch.table.add_entity e Row.new).map fun table' =>
        (0, { A with
          entity_map := alistInsert A.entity_map e 0,
          archetypes := A.archetypes.set 0 { arch with table := table' } })

/-- `Archetypes::remove_entity`: drop the entity-map entry and pull the
entity's row out of its archetype; inner `none` when the entity is unknown
to the map or to the table. -/
def remove_entity (A : Archetypes) (e : Entity) :
    Option (Option (ArchetypeId × Row) × Archetypes) :=
  match alistRemove A.entity_map e with
  | none => some (none, A)
  | some (aid, map') =>
    match A.archetypes[aid]? with
    | none => none
    | some arch =>
      match arch.table.remove_entity e with
      | none => none
      | some none => some (none, { A with entity_map := map' })
      | some (some (row, table')) =>
        some (some (aid, row),
          { A with
            entity_map := map',
            archetypes := A.archetypes.set aid { arch with table := table' } })

/-- `Archetypes::add_entity_inner`: sort the row's ids, reuse the matching
archetype or create a fresh one, insert the row, and record the entity's
location. -/
def add_entity_inner (A : Archetypes) (e : Entity) (components : Row) :
    Option (ArchetypeId × Archetypes) :=
  let ids := sortNat components.ids
  match alistLookup A.archetype_map ids with
  | some aid =>
    match A.archetypes[aid]? with
    | none => none
    | some arch =>
      (arch.table.add_entity e components).map fun table' =>
        (aid, { A with
          archetypes := A.archetypes.set aid { arch with table := table' },
          entity_map := alistInsert A.entity_map e aid })
  | none =>
    let bits := ids.foldl (fun b id => b.set id true) A.bitset
    let aid := A.archetypes.length
    (components.into_table e).map fun table =>
      (aid, { A with
        archetypes := A.archetypes ++ [⟨aid, table, bits⟩],
        entity_map := alistInsert A.entity_map e aid,
        archetype_map := alistInsert A.archetype_map ids aid })

/-- `Archetypes::add_component`: pull the entity's row, stamp a *new* cell
(`modify` on re-add, `add` on first add), replace the cell in the row, and
reinsert. -/
def add_component (A : Archetypes) (ty : Nat) (frame : Frame) (e : Entity)
    (value : Nat) : Option Archetypes :=
  match A.components.get_id ty with
  | none => none
  | some id =>
    match A.remove_entity e with
    | none => none
    | some (res, A') =>
      let row := match res with
        | some p => p.2
        | none => Row.new
      let cell := TableCell.new value
      let cell := if row.contains_id id then cell.modify frame else cell.add frame
      match row.insert_cell id cell with
      | none => none
      | some row' => (A'.add_entity_inner e row').map Prod.snd

/-- The per-component loop of `Archetypes::add_components`. -/
def addComponentsLoop (frame : Frame) :
    List (ComponentId × TableCell) → Row → Option Row
  | [], row => some row
  | (id, cell) :: rest, row =>
    let cell := if row.contains_id id then cell.modify frame else cell.add frame
    match row.insert_cell id cell with
    | some row' => addComponentsLoop frame rest row'
    | none => none

/-- `Archetypes::add_components` (the batch variant, one migration). -/
def add_components (A : Archetypes) (frame : Frame) (e : Entity)
    (components : Row) : Option Archetypes :=
  match A.remove_entity e with
  | none => none
  | some (res, A') =>
    let row := match res with
      | some p => p.2
      | none => Row.new
    match addComponentsLoop frame components.pairs row with
    | none => none
    | some row' => (A'.add_entity_inner e row').map Prod.snd

/-- `Archetypes::remove_component`: pull the row, drop the component, and
reinsert (an unknown entity is left alone). -/
def remove_component (A : Archetypes) (ty : Nat) (e : Entity) : Option Archetypes :=
  match A.components.get_id ty with
  | none => none
  | some id =>
    match A.remove_entity e with
    | none => none
    | some (none, A') => some A'
    | some (some p, A') =>
      match Row.remove_id p.2 id with
      | none => none
      | some (_, row') => (A'.add_entity_inner e row').map Prod.snd

/-- The per-component loop of `Archetypes::remove_components` (the removed
bag is discarded). -/
def removeComponentsLoop : List ComponentId → Row → Option Row
  | [], row => some row
  | id :: rest, row =>
    match Row.remove_id row id with
    | none => none
    | some (_, row') => removeComponentsLoop rest row'

/-- `Archetypes::remove_components` (the batch variant, one migration). -/
def remove_components (A : Archetypes) (e : Entity)
    (components : List ComponentId) : Option Archetypes :=
  match A.remove_entity e with
  | none => none
  | some (none, A') => some A'
  | some (some p, A') =>
    match removeComponentsLoop components p.2 with
    | none => none
    | some row' => (A'.add_entity_inner e row').map Prod.snd

/-- Observer composed from the source accessors (`entity_map`,
`Table::get_entity_row`, `Table::get_column`, `Column::frames`): the change
stamp stored for component `ty` on entity `e`. -/
def component_tracker (A : Archetypes) (ty : Nat) (e : Entity) :
    Option ObjectTracker :=
  match A.components.get_id ty with
  | none => none
  | some id =>
    match alistLookup A.entity_map e with
    | none => none
    | some aid =>
      match A.archetypes[aid]? with
      | none => none
      | some arch =>
        match arch.table.get_entity_row e, arch.table.get_column id with
        | some idx, some col => col.frames[idx]?
        | _, _ => none

end Archetypes

/-! ## `core/mod.rs`: the entity allocator -/

/-- `Entities`: the id allocator.  `free` is a `Vec` used as a stack
(`push` appends, `pop` takes the last element). -/
structure Entities where
  current : Nat
  free : List Nat
  generations : List (Nat × Nat)
deriving Repr, DecidableEq

namespace Entities

def new : Entities := ⟨0, [], []⟩

/-- `Entities::spawn`: pop a freed id and bump its generation, or issue a
fresh id at generation 1. -/
def spawn (s : Entities) : Entity × Entities :=
  match s.free.getLast? with
  | some id =>
    let generation := (alistLookup s.generations id).getD 0 + 1
    (⟨id, generation⟩,
      { s with free := s.free.dropLast,
               generations := alistInsert s.generations id generation })
  | none =>
    let id := s.current
    (⟨id, 1⟩,
      { s with current := s.current + 1,
               generations := alistInsert s.generations id 1 })

/-- `Entities::despawn`: unconditionally pushes the id onto the free list —
no liveness or generation check. -/
def despawn (s : Entities) (e : Entity) : Entities :=
  { s with free := s.free ++ [e.id] }

end Entities

/-! ## `world/resource.rs`: the resource store -/

/-- `ResourceCell`: the embedded payload.  The owner-thread and send flags
guard cross-thread access, which a single-threaded embedding cannot
exercise; the name is reflection data. -/
structure ResourceCell where
  value : Nat
deriving Repr, DecidableEq

/-- `Resources`: a sparse array of cells plus a `TypeId → ResourceId` map.
Rust `TypeId`s are embedded as `Nat`. -/
structure Resources where
  resources : SparseArray ResourceCell
  map : List (Nat × Nat)
deriving Repr, DecidableEq

namespace Resources

def new : Resources := ⟨SparseArray.new, []⟩

/-- `Resources::add`: when the type is already in the map the existing id is
returned and the argument is dropped; otherwise a fresh id and cell are
installed. -/
def add (r : Resources) (ty : Nat) (value : Nat) : Nat × Resources :=
  match alistLookup r.map ty with
  | some id => (id, r)
  | none =>
    let id := r.resources.len
    (id, ⟨r.resources.insert id ⟨value⟩, alistInsert r.map ty id⟩)

/-- `Resources::get`. -/
def get (r : Resources) (ty : Nat) : Option Nat :=
  (alistLookup r.map ty).bind fun id => (r.resources.get id).map (·.value)

/-- `Resources::remove`: takes the cell out of the sparse array; the map
entry stays. -/
def remove (r : Resources) (ty : Nat) : Option Nat × Resources :=
  match alistLookup r.map ty with
  | none => (none, r)
  | some id =>
    let p := r.resources.remove id
    (p.1.map (·.value), { r with resources := p.2 })

end Resources

/-! ## `world/mod.rs`: the world -/

/-- `World` (the process-wide `WorldId` counter is dropped; it carries no
information used by any operation). -/
structure World where
  archetypes : Archetypes
  resources : Resources
  entities : Entities
  frame : Frame
deriving Repr, DecidableEq

namespace World

/-- `World::new`: the frame counter starts at 1. -/
def new : World := ⟨Archetypes.new, Resources.new, Entities.new, 1⟩

/-- `World::spawn`: allocate an entity and place it in the empty archetype. -/
def spawn (w : World) : Option (Entity × World) :=
  let p := w.entities.spawn
  (w.archetypes.add_entity p.1).map fun q =>
    (p.1, { w with entities := p.2, archetypes := q.2 })

/-- `World::despawn`: free the id slot, then remove the entity from its
archetype. -/
def despawn (w : World) (e : Entity) :
    Option (Option (ArchetypeId × Row) × World) :=
  let ents := w.entities.despawn e
  (w.archetypes.remove_entity e).map fun p =>
    (p.1, { w with entities := ents, archetypes := p.2 })

/-- `World::register`. -/
def register (w : World) (ty : Nat) : ComponentId × World :=
  let p := w.archetypes.register ty
  (p.1, { w with archetypes := p.2 })

/-- `World::add_component`: delegates at the current frame. -/
def add_component (w : World) (ty : Nat) (e : Entity) (value : Nat) :
    Option World :=
  (w.archetypes.add_component ty w.frame e value).map fun A =>
    { w with archetypes := A }

/-- `World::remove_component`. -/
def remove_component (w : World) (ty : Nat) (e : Entity) : Option World :=
  (w.archetypes.remove_component ty e).map fun A => { w with archetypes := A }

/-- `World::add_resource`. -/
def add_resource (w : World) (ty : Nat) (value : Nat) : World :=
  { w with resources := (w.resources.add ty value).2 }

/-- `World::remove_resource`. -/
def remove_resource (w : World) (ty : Nat) : Option Nat × World :=
  let p := w.resources.remove ty
  (p.1, { w with resources := p.2 })

end World

/-! ## `system/query.rs`: the `Added` / `Modified` filter terms

`init` takes the component registry and the archetype query being built; the
Rust `&mut ArchetypeQuery` becomes an explicit returned query, and the
`expect` on an unregistered component becomes the outer `none`. -/

/-- `AddedComponent<C>`: the per-archetype filter state. -/
structure AddedComponent where
  reader : Option Column
  current_frame : Frame
  system_frame : Frame
deriving Repr, DecidableEq

/-- `ModifiedComponent<C>`: the per-archetype filter state. -/
structure ModifiedComponent where
  reader : Option Column
  current_frame : Frame
  system_frame : Frame
deriving Repr, DecidableEq

namespace Added

/-- `Added::<C>::init`: look the component id up; the query is not touched. -/
def init (components : Components) (ty : Nat) (query : ArchetypeQuery) :
    Option (ComponentId × ArchetypeQuery) :=
  (components.get_id ty).map fun id => (id, query)

/-- `Added::<C>::state`: fetch the archetype's `C` column if present. -/
def state (data : ComponentId) (archetype : Archetype)
    (current_frame system_frame : Frame) : AddedComponent :=
  ⟨archetype.table.get_column data, current_frame, system_frame⟩

/-- `Added::<C>::get`: no column means no yield; otherwise test the row's
`added` stamp with the freshness predicate (the out-of-bounds row panic of
`frames()[row]` is mapped to `false`). -/
def get (st : AddedComponent) (row : Nat) : Bool :=
  match st.reader with
  | some col =>
    match col.frames[row]? with
    | some tr => tr.added.is_newer st.current_frame st.system_frame
    | none => false
  | none => false

end Added

namespace Modified

/-- `Modified::<C>::init`: look the component id up; the query is not
touched. -/
def init (components : Components) (ty : Nat) (query : ArchetypeQuery) :
    Option (ComponentId × ArchetypeQuery) :=
  (components.get_id ty).map fun id => (id, query)

/-- `Modified::<C>::state`. -/
def state (data : ComponentId) (archetype : Archetype)
    (current_frame system_frame : Frame) : ModifiedComponent :=
  ⟨archetype.table.get_column data, current_frame, system_frame⟩

/-- `Modified::<C>::get`: same as `Added` on the `modified` stamp. -/
def get (st : ModifiedComponent) (row : Nat) : Bool :=
  match st.reader with
  | some col =>
    match col.frames[row]? with
    | some tr => tr.modified.is_newer st.current_frame st.system_frame
    | none => false
  | none => false

end Modified

namespace With

/-- `With::<C>::init` (for contrast): pushes the id into the include set. -/
def init (components : Components) (ty : Nat) (query : ArchetypeQuery) :
    Option (ComponentId × ArchetypeQuery) :=
  (components.get_id ty).map fun id =>
    (id, { query with components := query.components ++ [id] })

end With

namespace Not

/-- `Not::<C>::init` (for contrast): pushes the id into the exclude set. -/
def init (components : Components) (ty : Nat) (query : ArchetypeQuery) :
    Option (ComponentId × ArchetypeQuery) :=
  (components.get_id ty).map fun id =>
    (id, { query with exclude := query.exclude ++ [id] })

end Not

/-! ## `system/mod.rs`, `system/executor/*.rs`, `system/schedule.rs`

A `SystemConfig`'s three closures are embedded by the data they contribute
at build time: `access` by its returned access list, `init` by nothing (its
state is opaque), `execute` by nothing (never called during `build`).
Systems are identified by their `SystemId` and display name. -/

inductive Access where
  | read
  | write
deriving Repr, DecidableEq

inductive SystemAccess where
  | component (id : ComponentId) (access : Access)
  | resource (id : Nat) (access : Access)
deriving Repr, DecidableEq

structure SystemConfig where
  id : Nat
  name : String
  exclusive : Bool
  send : Bool
  dependencies : List Nat
  access : List SystemAccess
deriving Repr, DecidableEq

/-- `SystemNode`: the built node (its `System` payload is embedded by the
display name). -/
structure SystemNode where
  id : Nat
  name : String
  send : Bool
  exclusive : Bool
  dependencies : List Nat
  access : List SystemAccess
deriving Repr, DecidableEq

/-- `SystemConfig::into_system_node`. -/
def SystemConfig.into_system_node (c : SystemConfig) : SystemNode :=
  ⟨c.id, c.name, c.send, c.exclusive, c.dependencies, c.access⟩

/-- Modelled from the spec (`SystemNode::has_dependency` is not in the
provided tree): a `(read, write)` or `(write, write)` pair on the same
component or resource id conflicts. -/
def accessConflict : SystemAccess → SystemAccess → Bool
  | .component i a, .component j b =>
    i == j && (a == .write || b == .write)
  | .resource i a, .resource j b =>
    i == j && (a == .write || b == .write)
  | _, _ => false

/-- Modelled from the spec (4.6, edge rule): `later` depends on `earlier`
when it explicitly lists `earlier`'s id or their access lists conflict. -/
def SystemNode.has_dependency (n dep : SystemNode) : Bool :=
  n.dependencies.contains dep.id ||
    n.access.any fun a => dep.access.any fun b => accessConflict a b

/-- `GraphInfo`: nodes, per-node dependents bitset, per-node in-degrees. -/
structure GraphInfo where
  nodes : List SystemNode
  dependents : List (List Bool)
  dependencies : List Nat
deriving Repr, DecidableEq

/-- The edge test of `GraphInfo::new` — note that the source enumerates
`index` over the *reversed* node list while `dep_index` walks the forward
list (`nodes.iter().rev().enumerate()` with `nodes.iter().take(index)`). -/
def graphEdge (nodes : List SystemNode) (index dep_index : Nat) : Bool :=
  match nodes[nodes.length - 1 - index]?, nodes[dep_index]? with
  | some node, some dep_node => node.has_dependency dep_node
  | _, _ => false

/-- `GraphInfo::new`. -/
def GraphInfo.new (configs : List SystemConfig) : GraphInfo :=
  let nodes := configs.map SystemConfig.into_system_node
  let n := nodes.length
  let dependencies := (List.range n).map fun index =>
    ((List.range index).filter fun dep_index => graphEdge nodes index dep_index).length
  let dependents := (List.range n).map fun dep_index =>
    (List.range n).map fun index => decide (dep_index < index) && graphEdge nodes index dep_index
  ⟨nodes, dependents, dependencies⟩

/-- `SequentialExecutor`: systems (by display name) and the computed
execution order. -/
structure SequentialExecutor where
  systems : List String
  order : List Nat
deriving Repr, DecidableEq

/-- One step of the `while let Some(node_index) = stack.pop()` loop of
`SequentialExecutor::new`.  The stack is a LIFO: the head is the most
recently pushed index.  `fuel` dominates the loop's total pop count (each
processed node pushes at most `n` dependents and is processed once), so the
fuel-exhaustion branch is unreachable for the bound passed below. -/
def seqPeel (dependents : List (List Bool)) :
    Nat → List Nat → List Nat × List Bool × List Nat →
    List Nat × List Bool × List Nat
  | 0, _, st => st
  | _ + 1, [], st => st
  | fuel + 1, i :: stack, (deps, visited, order) =>
    if visited.getD i false then seqPeel dependents fuel stack (deps, visited, order)
    else if deps.getD i 0 == 0 then
      let row := dependents.getD i []
      let ones := (List.range row.length).filter fun j => row.getD j false
      let deps' := ones.foldl (fun d j => d.set j (d.getD j 0 - 1)) deps
      seqPeel dependents fuel (ones.reverse ++ stack)
        (deps', visited.set i true, order ++ [i])
    else
      seqPeel dependents fuel stack (deps, visited, order)

/-- `SequentialExecutor::new`: seed the stack with each index in turn and
peel; nodes whose in-degree never reaches zero are silently left out of the
order. -/
def SequentialExecutor.new (info : GraphInfo) : SequentialExecutor :=
  let n := info.nodes.length
  let fuel := (n + 1) * (n + 1) + 1
  let final := (List.range n).foldl
    (fun st index => seqPeel info.dependents fuel [index] st)
    (info.dependencies, List.replicate n false, [])
  ⟨info.nodes.map (·.name), final.2.2⟩

/-- `ParallelExecutor`'s build-time data: same dependency graph plus the
initial ready set (its runtime machinery is thread scheduling, out of the
embedding's scope). -/
structure ParallelExecutorData where
  systems : List String
  dependents : List (List Bool)
  dependencies : List Nat
  initial_systems : List Bool
deriving Repr, DecidableEq

/-- `ParallelExecutor::new` repeats `GraphInfo::new`'s loop and records the
zero-in-degree nodes. -/
def ParallelExecutorData.new (info : GraphInfo) : ParallelExecutorData :=
  ⟨info.nodes.map (·.name), info.dependents, info.dependencies,
    info.dependencies.map (· == 0)⟩

inductive Executor where
  | sequential (e : SequentialExecutor)
  | parallel (p : ParallelExecutorData)
deriving Repr, DecidableEq

inductive RunMode where
  | sequential
  | parallel
deriving Repr, DecidableEq

/-- `RunMode::create_executor`. -/
def RunMode.create_executor : RunMode → GraphInfo → Executor
  | .sequential, info => .sequential (SequentialExecutor.new info)
  | .parallel, info => .parallel (ParallelExecutorData.new info)

/-- `PhaseConfig`: a phase's name, its submitted system configs, and its
hierarchy parent. -/
structure PhaseConfig where
  name : String
  configs : List SystemConfig
  parent : Option Nat
deriving Repr, DecidableEq

/-- `PhaseNode`: the built phase. -/
structure PhaseNode where
  name : String
  executor : Executor
deriving Repr, DecidableEq

/-- `PhaseConfig::build`. -/
def PhaseConfig.build (c : PhaseConfig) (mode : RunMode) : PhaseNode :=
  ⟨c.name, mode.create_executor (GraphInfo.new c.configs)⟩

/-- Modelled from the spec (the `IndexDag` source is not in the provided
tree): a DAG of indexed nodes with dependency edges; `build` topologically
sorts and reports the indices of nodes stuck on a cycle. -/
structure IndexDag (α : Type) where
  nodes : List α
  edges : List (Nat × Nat)
deriving Repr, DecidableEq

namespace IndexDag

def empty : IndexDag α := ⟨[], []⟩

def add_node (d : IndexDag α) (x : α) : Nat × IndexDag α :=
  (d.nodes.length, ⟨d.nodes ++ [x], d.edges⟩)

def add_dependency (d : IndexDag α) (a b : Nat) : IndexDag α :=
  ⟨d.nodes, d.edges ++ [(a, b)]⟩

def map (d : IndexDag α) (f : α → β) : IndexDag β :=
  ⟨d.nodes.map f, d.edges⟩

/-- Modelled from the spec: Kahn-style peeling by rounds; after `n` rounds
every non-cyclic node is removed, and the remaining indices are the cycle
participants returned by `build`'s error. -/
def buildCheck (d : IndexDag α) : Except (List Nat) Unit :=
  let n := d.nodes.length
  let step := fun (removed : List Bool) =>
    (List.range n).map fun i =>
      removed.getD i false ||
        d.edges.all fun e => !(e.2 == i) || removed.getD e.1 false
  let final := (List.range n).foldl (fun r _ => step r) (List.replicate n false)
  let remaining := (List.range n).filter fun i => !(final.getD i false)
  if remaining.isEmpty then .ok () else .error remaining

end IndexDag

inductive ScheduleBuildError where
  | cyclicDependency (names : List String)
  | cyclicHierarchy (names : List String)
deriving Repr, DecidableEq

/-- `Schedule`: phase-ordering DAG, hierarchy DAG, and the name map. -/
structure Schedule where
  mode : RunMode
  phases : IndexDag PhaseConfig
  hierarchy : IndexDag Nat
  map : List (String × Nat)
deriving Repr, DecidableEq

/-- `Systems`: the built schedule (the immutable DAGs share the embedding of
the mutable ones). -/
structure Systems where
  mode : RunMode
  phases : IndexDag PhaseNode
  hierarchy : IndexDag Nat
  map : List (String × Nat)
deriving Repr, DecidableEq

namespace Schedule

def new (mode : RunMode) : Schedule := ⟨mode, IndexDag.empty, IndexDag.empty, []⟩

/-- `Schedule::add_phase` (phases are keyed by name). -/
def add_phase (s : Schedule) (name : String) : Nat × Schedule :=
  match alistLookup s.map name with
  | some index => (index, s)
  | none =>
    let p := s.phases.add_node ⟨name, [], none⟩
    (p.1, { s with
      phases := p.2,
      map := alistInsert s.map name p.1,
      hierarchy := (s.hierarchy.add_node p.1).2 })

/-- `Schedule::add_systems`: append the configs to the (possibly freshly
created) phase. -/
def add_systems (s : Schedule) (name : String) (configs : List SystemConfig) :
    Schedule :=
  let p := s.add_phase name
  let s' := p.2
  match s'.phases.nodes[p.1]? with
  | some pc =>
    { s' with phases := { s'.phases with
        nodes := s'.phases.nodes.set p.1 { pc with configs := pc.configs ++ configs } } }
  | none => s'

/-- `Schedule::build`: build every phase's executor, then cycle-check the
hierarchy DAG and the phase-ordering DAG.  Both checks return
`CyclicHierarchy`; no code path constructs `CyclicDependency`, and the
per-phase system graphs are never cycle-checked at all. -/
def build (s : Schedule) : Except ScheduleBuildError Systems :=
  let phases := s.phases.map (fun c => c.build s.mode)
  match s.hierarchy.buildCheck with
  | .error idxs =>
    .error (.cyclicHierarchy (idxs.map fun i => (phases.nodes[i]?.map (·.name)).getD ""))
  | .ok _ =>
    match phases.buildCheck with
    | .error idxs =>
      .error (.cyclicHierarchy (idxs.map fun i => (phases.nodes[i]?.map (·.name)).getD ""))
    | .ok _ => .ok ⟨s.mode, phases, s.hierarchy, s.map⟩

end Schedule

/-! ## Well-formedness predicates

These spell out the spec's structural invariants (table alignment, entity
location, archetype-map consistency) over the embedded state, in decidable
form so concrete states can be checked by evaluation. -/

/-- Property of the payload of an `Option`; `none` fails. -/
def optSat (o : Option α) (p : α → Prop) : Prop :=
  match o with
  | some x => p x
  | none => False

instance (o : Option α) (p : α → Prop) [∀ x, Decidable (p x)] :
    Decidable (optSat o p) := by
  unfold optSat
  cases o with
  | none => exact inferInstanceAs (Decidable False)
  | some x => infer_instance

/-- Property of the payload of an `Option`; `none` passes. -/
def optAll (o : Option α) (p : α → Prop) : Prop :=
  match o with
  | some x => p x
  | none => True

instance (o : Option α) (p : α → Prop) [∀ x, Decidable (p x)] :
    Decidable (optAll o p) := by
  unfold optAll
  cases o with
  | none => exact inferInstanceAs (Decidable True)
  | some x => infer_instance

/-- Two id lists carrying the same key set. -/
def sameKeySet (k1 k2 : List Nat) : Prop :=
  (∀ x ∈ k1, x ∈ k2) ∧ (∀ x ∈ k2, x ∈ k1)

instance (k1 k2 : List Nat) : Decidable (sameKeySet k1 k2) := by
  unfold sameKeySet
  infer_instance

/-- The sparse-set coherence invariant (the Prop form of `wfb`): dense
vectors agree in length, every dense position is indexed by its key's
sparse entry, and every sparse entry points back at its key. -/
def SparseSet.Swf (s : SparseSet V) : Prop :=
  s.indices.length = s.values.length ∧
  (∀ i ∈ List.range s.indices.length,
    optSat s.indices[i]? (fun k => s.sparse.get k = some i)) ∧
  (∀ k ∈ List.range s.sparse.values.length,
    optAll (s.sparse.get k)
      (fun j => j < s.indices.length ∧ s.indices[j]? = some k))

instance (s : SparseSet V) : Decidable (SparseSet.Swf s) := by
  unfold SparseSet.Swf
  infer_instance

/-- Table well-formedness: a duplicate-free entity index, coherent column
map, and the spec's alignment — every column as long as the entity index. -/
def TableWf (t : Table) : Prop :=
  t.entities.Nodup ∧
  t.columns.indices.length = t.columns.values.length ∧
  t.columns.indices.Nodup ∧
  ∀ c ∈ t.columns.values,
    c.data.length = t.entities.length ∧ c.frames.length = t.entities.length

instance (t : Table) : Decidable (TableWf t) := by
  unfold TableWf
  infer_instance

/-- The registry invariant: every archetype's table is well-formed and
aligned, the entity map locates every live entity in its archetype's entity
index (and conversely), entity-map keys are unique, and every archetype-map
entry points at an archetype whose column set is exactly the entry's key
set. -/
def ArchetypesWf (A : Archetypes) : Prop :=
  (∀ a ∈ A.archetypes, TableWf a.table) ∧
  (∀ p ∈ A.entity_map,
    optSat A.archetypes[p.2]? (fun arch => p.1 ∈ arch.table.entities)) ∧
  (∀ i ∈ List.range A.archetypes.length,
    optSat A.archetypes[i]? (fun arch =>
      ∀ e ∈ arch.table.entities, alistLookup A.entity_map e = some i)) ∧
  (A.entity_map.map Prod.fst).Nodup ∧
  (∀ q ∈ A.archetype_map,
    optSat A.archetypes[q.2]? (fun arch =>
      sameKeySet q.1 arch.table.columns.indices))

instance (A : Archetypes) : Decidable (ArchetypesWf A) := by
  unfold ArchetypesWf
  infer_instance

/-- The spec's table-alignment property itself: in every archetype, the
entity count equals the length of every column. -/
def TableAligned (A : Archetypes) : Prop :=
  ∀ a ∈ A.archetypes, ∀ c ∈ a.table.columns.values,
    c.data.length = a.table.entities.length ∧
    c.frames.length = a.table.entities.length

/-! # Theorems -/

/-! ## Helper lemmas on the list and association-list embeddings -/

theorem listSwapRemove_isSome {l : List α} {i : Nat} (h : i < l.length) :
    ∃ x l', listSwapRemove l i = some (x, l') := by
  have hx : l[i]? = some (l.get ⟨i, h⟩) := by
    simp [List.getElem?_eq_getElem h]
  have hne : l ≠ [] := by
    intro hnil; subst hnil; simp at h
  have hlast : l.getLast? = some (l.getLast hne) := List.getLast?_eq_getLast l hne
  refine ⟨l.get ⟨i, h⟩, (l.set i (l.getLast hne)).dropLast, ?_⟩
  simp [listSwapRemove, hx, hlast]

theorem listSwapRemove_length {l l' : List α} {i : Nat} {x : α}
    (h : listSwapRemove l i = some (x, l')) : l'.length + 1 = l.length := by
  unfold listSwapRemove at h
  cases hg : l[i]? with
  | none => simp [hg] at h
  | some y =>
    cases hl : l.getLast? with
    | none => simp [hg, hl] at h
    | some z =>
      simp only [hg, hl, Option.some.injEq, Prod.mk.injEq] at h
      obtain ⟨-, rfl⟩ := h
      have hne : l ≠ [] := by
        intro hnil; subst hnil; simp at hg
      have hpos : 0 < l.length := List.length_pos.mpr hne
      simp only [List.length_dropLast, List.length_set]
      omega

theorem listSwapRemove_none {l : List α} {i : Nat} (h : ¬ i < l.length) :
    listSwapRemove l i = none := by
  have hx : l[i]? = none := by
    simp [List.getElem?_eq_none_iff]; omega
  simp [listSwapRemove, hx]

theorem alistLookup_insert_self [DecidableEq κ] (l : List (κ × ν)) (k : κ) (v : ν) :
    alistLookup (alistInsert l k v) k = some v := by
  induction l with
  | nil => simp [alistInsert, alistLookup]
  | cons p rest ih =>
    by_cases h : p.1 = k
    · simp [alistInsert, alistLookup, h]
    · simp [alistInsert, alistLookup, h, ih]

theorem alistLookup_insert_other [DecidableEq κ] (l : List (κ × ν)) (k k' : κ)
    (v : ν) (h : k' ≠ k) :
    alistLookup (alistInsert l k v) k' = alistLookup l k' := by
  have h2 : k ≠ k' := Ne.symm h
  induction l with
  | nil => simp [alistInsert, alistLookup, h2]
  | cons p rest ih =>
    obtain ⟨pk, pv⟩ := p
    by_cases hp : pk = k
    · subst hp
      simp [alistInsert, alistLookup, h2]
    · simp [alistInsert, alistLookup, hp, ih]

theorem alistRemove_eq_none [DecidableEq κ] {l : List (κ × ν)} {k : κ}
    (h : alistLookup l k = none) : alistRemove l k = none := by
  induction l with
  | nil => simp [alistRemove]
  | cons p rest ih =>
    by_cases hp : p.1 = k
    · simp [alistLookup, hp] at h
    · simp [alistLookup, hp] at h
      simp [alistRemove, hp, ih h]

theorem alistLookup_eq_none_of_remove_none [DecidableEq κ] {l : List (κ × ν)}
    {k : κ} (h : alistRemove l k = none) : alistLookup l k = none := by
  induction l with
  | nil => simp [alistLookup]
  | cons p rest ih =>
    by_cases hp : p.1 = k
    · simp [alistRemove, hp] at h
    · simp [alistRemove, hp] at h
      cases hr : alistRemove rest k with
      | none => simp [alistLookup, hp, ih hr]
      | some q => simp [hr] at h

/-- After removing key `k` from an association list whose keys are
duplicate-free, `k` keys no remaining entry. -/
theorem alistRemove_nodup_not_mem [DecidableEq κ] {l : List (κ × ν)} {k : κ}
    {v : ν} {l' : List (κ × ν)} (hnd : (l.map Prod.fst).Nodup)
    (h : alistRemove l k = some (v, l')) :
    k ∉ l'.map Prod.fst := by
  induction l generalizing v l' with
  | nil => simp [alistRemove] at h
  | cons q rest ih =>
    obtain ⟨qk, qv⟩ := q
    simp only [List.map_cons, List.nodup_cons] at hnd
    by_cases hq : qk = k
    · subst hq
      simp only [alistRemove, if_pos rfl, Option.some.injEq, Prod.mk.injEq] at h
      obtain ⟨-, rfl⟩ := h
      exact hnd.1
    · simp only [alistRemove, if_neg hq] at h
      cases hr : alistRemove rest k with
      | none => simp [hr] at h
      | some pr =>
        obtain ⟨v0, rest'⟩ := pr
        rw [hr] at h
        simp only [Option.map_some', Option.some.injEq, Prod.mk.injEq] at h
        obtain ⟨rfl, rfl⟩ := h
        simp only [List.map_cons, List.mem_cons]
        push_neg
        exact ⟨fun hk => hq hk.symm, ih hnd.2 hr⟩

/-- Keys after an insert are among the old keys and the inserted key. -/
theorem alistInsert_keys_subset [DecidableEq κ] (l : List (κ × ν)) (k : κ)
    (v : ν) : ∀ x ∈ (alistInsert l k v).map Prod.fst, x = k ∨ x ∈ l.map Prod.fst := by
  induction l with
  | nil => simp [alistInsert]
  | cons q rest ih =>
    obtain ⟨qk, qv⟩ := q
    by_cases hq : qk = k
    · subst hq
      intro x hx
      simp only [alistInsert, if_pos rfl, List.map_cons, List.mem_cons,
        eq_self_iff_true, if_true] at hx
      simp only [List.map_cons, List.mem_cons]
      rcases hx with hx | hx
      · exact Or.inl hx
      · exact Or.inr (Or.inr hx)
    · intro x hx
      simp only [alistInsert, if_neg hq, List.map_cons, List.mem_cons] at hx
      simp only [List.map_cons, List.mem_cons]
      rcases hx with hx | hx
      · exact Or.inr (Or.inl hx)
      · rcases ih x hx with h | h
        · exact Or.inl h
        · exact Or.inr (Or.inr h)

theorem alistLookup_eq_none_iff [DecidableEq κ] (l : List (κ × ν)) (k : κ) :
    alistLookup l k = none ↔ k ∉ l.map Prod.fst := by
  induction l with
  | nil => simp [alistLookup]
  | cons p rest ih =>
    obtain ⟨pk, pv⟩ := p
    by_cases hp : pk = k
    · subst hp
      simp [alistLookup]
    · have hp' : ¬ k = pk := fun hk => hp hk.symm
      simp [alistLookup, hp, ih, hp']

theorem alistRemove_keys_subset [DecidableEq κ] {l : List (κ × ν)} {k : κ} {v : ν}
    {l' : List (κ × ν)} (h : alistRemove l k = some (v, l')) :
    ∀ x ∈ l'.map Prod.fst, x ∈ l.map Prod.fst := by
  induction l generalizing v l' with
  | nil => simp [alistRemove] at h
  | cons p rest ih =>
    obtain ⟨pk, pv⟩ := p
    by_cases hp : pk = k
    · subst hp
      simp only [alistRemove, if_pos rfl, Option.some.injEq, Prod.mk.injEq] at h
      obtain ⟨-, rfl⟩ := h
      intro x hx
      simp only [List.map_cons, List.mem_cons]
      exact Or.inr hx
    · simp only [alistRemove, if_neg hp] at h
      cases hr : alistRemove rest k with
      | none => rw [hr] at h; simp at h
      | some pr =>
        obtain ⟨v0, rest'⟩ := pr
        rw [hr] at h
        simp only [Option.map_some', Option.some.injEq, Prod.mk.injEq] at h
        obtain ⟨rfl, rfl⟩ := h
        intro x hx
        simp only [List.map_cons, List.mem_cons] at hx ⊢
        rcases hx with hx | hx
        · exact Or.inl hx
        · exact Or.inr (ih hr x hx)

/-- A successful swap-remove deconstructed: the index is in bounds, the
removed element is the one at the index, and the remainder is the set-list
with the last position dropped. -/
theorem listSwapRemove_spec {l l' : List α} {i : Nat} {x : α}
    (h : listSwapRemove l i = some (x, l')) :
    ∃ (hi : i < l.length) (last : α), l[l.length - 1]? = some last ∧
      x = l[i] ∧ l.getLast? = some last ∧ l' = (l.set i last).dropLast := by
  unfold listSwapRemove at h
  cases hg : l[i]? with
  | none => rw [hg] at h; simp at h
  | some y =>
    cases hl : l.getLast? with
    | none => rw [hg, hl] at h; simp at h
    | some last =>
      rw [hg, hl] at h
      simp only [Option.some.injEq, Prod.mk.injEq] at h
      obtain ⟨rfl, rfl⟩ := h
      obtain ⟨hi, hx⟩ := List.getElem?_eq_some.mp hg
      have hl2 := hl
      rw [List.getLast?_eq_getElem?] at hl2
      exact ⟨hi, last, hl2, hx.symm, rfl, rfl⟩

/-- The element count of a swap-remove: `x :: l'` is a permutation of `l`. -/
theorem listSwapRemove_perm {l l' : List α} {i : Nat} {x : α}
    (h : listSwapRemove l i = some (x, l')) : l.Perm (x :: l') := by
  obtain ⟨hi, last, hlastidx, hx, hlast, hl'⟩ := listSwapRemove_spec h
  have hpos : 0 < l.length := by omega
  -- The set-list ends with `last`, so `l' ++ [last]` rebuilds it.
  have hback : l' ++ [last] = l.set i last := by
    have hlen : (l.set i last).length = l.length := by simp
    have hne : l.set i last ≠ [] := by
      intro hc
      rw [hc] at hlen
      simp at hlen
      omega
    have hlast2 : (l.set i last).getLast hne = last := by
      have hsome : (l.set i last)[(l.set i last).length - 1]? = some last := by
        rw [List.getElem?_set, hlen]
        by_cases hcase : i = l.length - 1
        · rw [if_pos hcase, if_pos hi]
        · rw [if_neg hcase]
          exact hlastidx
      rw [List.getLast_eq_getElem]
      obtain ⟨hh1, hh2⟩ := List.getElem?_eq_some.mp hsome
      exact hh2
    have hrebuild := List.dropLast_append_getLast hne
    rw [hlast2] at hrebuild
    rw [hl']
    exact hrebuild
  -- Decompose both lists around position `i`.
  have hdec : l = l.take i ++ x :: l.drop (i + 1) := by
    rw [hx]
    conv_lhs => rw [← List.take_append_drop i l]
    rw [List.drop_eq_getElem_cons hi]
  have hset : l.set i last = l.take i ++ last :: l.drop (i + 1) := by
    rw [List.set_eq_take_append_cons_drop, if_pos hi]
  -- Cancel the trailing `[last]` after chaining permutations.
  have hchain : (x :: l') ++ [last] = x :: (l.take i ++ last :: l.drop (i + 1)) := by
    rw [← hset, ← hback]
    rfl
  have p1 : (x :: (l.take i ++ last :: l.drop (i + 1))).Perm
      (x :: last :: (l.take i ++ l.drop (i + 1))) :=
    List.Perm.cons x List.perm_middle
  have p2 : (x :: last :: (l.take i ++ l.drop (i + 1))).Perm
      (last :: x :: (l.take i ++ l.drop (i + 1))) :=
    List.Perm.swap _ _ _
  have p3 : (last :: x :: (l.take i ++ l.drop (i + 1))).Perm
      (last :: (l.take i ++ x :: l.drop (i + 1))) :=
    List.Perm.cons last List.perm_middle.symm
  have p4 : (last :: (l.take i ++ x :: l.drop (i + 1))).Perm
      ((l.take i ++ x :: l.drop (i + 1)) ++ [last]) :=
    (List.perm_append_singleton _ _).symm
  have hperm1 : ((x :: l') ++ [last]).Perm (l ++ [last]) := by
    rw [hchain]
    refine (((p1.trans p2).trans p3).trans p4).trans ?_
    rw [← hdec]
  exact ((List.perm_append_right_iff [last]).mp hperm1).symm

/-- Swap-remove on a duplicate-free list removes exactly the element at the
index. -/
theorem listSwapRemove_nodup_mem {l l' : List α} {i : Nat} {x : α}
    (hnd : l.Nodup) (h : listSwapRemove l i = some (x, l')) :
    l'.Nodup ∧ ∀ y, y ∈ l' ↔ y ∈ l ∧ y ≠ x := by
  have hperm := listSwapRemove_perm h
  have hnd2 : (x :: l').Nodup := hperm.nodup_iff.mp hnd
  have hx_not : x ∉ l' := (List.nodup_cons.mp hnd2).1
  refine ⟨(List.nodup_cons.mp hnd2).2, fun y => ?_⟩
  constructor
  · intro hy
    refine ⟨hperm.mem_iff.mpr (List.mem_cons_of_mem x hy), ?_⟩
    intro hxy
    exact hx_not (hxy ▸ hy)
  · rintro ⟨hy, hne⟩
    rcases List.mem_cons.mp (hperm.mem_iff.mp hy) with h1 | h1
    · exact absurd h1 hne
    · exact h1

/-- The positions after a swap-remove: position `i` now holds the old last
element, all other surviving positions are unchanged. -/
theorem listSwapRemove_getElem? {l l' : List α} {i : Nat} {x : α}
    (h : listSwapRemove l i = some (x, l')) (j : Nat) (hj : j < l'.length) :
    l'[j]? = if j = i then l[l.length - 1]? else l[j]? := by
  obtain ⟨hi, last, hlastidx, hx, hlast, hl'⟩ := listSwapRemove_spec h
  have hlen : l'.length + 1 = l.length := listSwapRemove_length h
  have hdrop : l' = (l.set i last).take (l.length - 1) := by
    rw [hl', List.dropLast_eq_take]
    simp
  rw [hdrop, List.getElem?_take, if_pos (by omega), List.getElem?_set]
  by_cases hcase : i = j
  · subst hcase
    rw [if_pos rfl, if_pos hi, if_pos rfl]
    exact hlastidx.symm
  · rw [if_neg hcase, if_neg (fun hc => hcase hc.symm)]

/-! ## Sparse-set coherence lemmas -/

theorem SparseArray.get_of_ge {a : SparseArray V} {k : Nat}
    (h : a.values.length ≤ k) : a.get k = none :=
  List.getD_eq_default _ _ h

theorem SparseArray.get_insert (a : SparseArray V) (k : Nat) (v : V) (j : Nat) :
    (a.insert k v).get j = if j = k then some v else a.get j := by
  unfold SparseArray.insert SparseArray.get
  set grown := if k ≥ a.values.length
    then a.values ++ List.replicate (k + 1 - a.values.length) none
    else a.values with hgrown
  have hglen : k < grown.length := by
    rw [hgrown]
    by_cases hk : k ≥ a.values.length
    · rw [if_pos hk]
      simp
      omega
    · rw [if_neg hk]
      omega
  have hpad : ∀ m, grown.getD m none = a.values.getD m none := by
    intro m
    rw [hgrown]
    by_cases hk : k ≥ a.values.length
    · rw [if_pos hk]
      rw [List.getD_eq_getElem?_getD, List.getD_eq_getElem?_getD,
        List.getElem?_append]
      by_cases hm : m < a.values.length
      · rw [if_pos hm]
      · rw [if_neg hm]
        have hnone : a.values[m]? = none :=
          List.getElem?_eq_none_iff.mpr (by omega)
        rw [hnone, List.getElem?_replicate]
        by_cases h2 : m - a.values.length < k + 1 - a.values.length
        · rw [if_pos h2]
          rfl
        · rw [if_neg h2]
    · rw [if_neg hk]
  by_cases hj : j = k
  · subst hj
    simp only [if_pos rfl]
    rw [List.getD_eq_getElem?_getD, List.getElem?_set, if_pos rfl, if_pos hglen]
    rfl
  · rw [if_neg hj]
    rw [List.getD_eq_getElem?_getD, List.getElem?_set,
      if_neg (fun hc => hj hc.symm), ← List.getD_eq_getElem?_getD]
    exact hpad j

theorem SparseArray.remove_fst (a : SparseArray V) (k : Nat) :
    (a.remove k).1 = a.get k := by
  unfold SparseArray.remove SparseArray.get
  by_cases hk : k < a.values.length
  · rw [if_pos hk]
  · rw [if_neg hk]
    rw [List.getD_eq_getElem?_getD, List.getElem?_eq_none_iff.mpr (by omega)]
    rfl

theorem SparseArray.get_remove (a : SparseArray V) (k : Nat) (j : Nat) :
    (a.remove k).2.get j = if j = k then none else a.get j := by
  unfold SparseArray.remove SparseArray.get
  by_cases hk : k < a.values.length
  · rw [if_pos hk]
    simp only
    by_cases hj : j = k
    · subst hj
      rw [if_pos rfl, List.getD_eq_getElem?_getD, List.getElem?_set,
        if_pos rfl, if_pos hk]
      rfl
    · rw [if_neg hj, List.getD_eq_getElem?_getD, List.getElem?_set,
        if_neg (fun hc => hj hc.symm), ← List.getD_eq_getElem?_getD]
  · rw [if_neg hk]
    by_cases hj : j = k
    · subst hj
      rw [if_pos rfl]
      simp only
      rw [List.getD_eq_getElem?_getD, List.getElem?_eq_none_iff.mpr (by omega)]
      rfl
    · rw [if_neg hj]

theorem SparseArray.get_update (a : SparseArray V) (k : Nat) (v : V) (j : Nat) :
    (a.update k v).get j =
      if j = k ∧ (a.get k).isSome then some v else a.get j := by
  unfold SparseArray.update
  by_cases hocc : (a.get k).isSome
  · rw [if_pos hocc]
    have hk : k < a.values.length := by
      by_contra hc
      rw [SparseArray.get_of_ge (by omega)] at hocc
      simp at hocc
    by_cases hj : j = k
    · subst hj
      rw [if_pos ⟨rfl, hocc⟩]
      unfold SparseArray.get
      rw [List.getD_eq_getElem?_getD, List.getElem?_set, if_pos rfl, if_pos hk]
      rfl
    · rw [if_neg (fun hc => hj hc.1)]
      unfold SparseArray.get
      rw [List.getD_eq_getElem?_getD, List.getElem?_set,
        if_neg (fun hc => hj hc.symm), ← List.getD_eq_getElem?_getD]
  · rw [if_neg hocc]
    by_cases hj : j = k
    · rw [if_neg (fun hc => hocc hc.2)]
    · rw [if_neg (fun hc => hj hc.1)]

theorem SparseArray.update_values_length (a : SparseArray V) (k : Nat) (v : V) :
    (a.update k v).values.length = a.values.length := by
  unfold SparseArray.update
  by_cases hocc : (a.get k).isSome
  · rw [if_pos hocc]
    simp
  · rw [if_neg hocc]

/-- Unbounded form of the sparse-soundness clause of `Swf`. -/
theorem SparseSet.Swf.sparse_sound {s : SparseSet V} (h : SparseSet.Swf s)
    {k j : Nat} (hget : s.sparse.get k = some j) :
    j < s.indices.length ∧ s.indices[j]? = some k := by
  by_cases hk : k < s.sparse.values.length
  · have := h.2.2 k (List.mem_range.mpr hk)
    rw [hget] at this
    exact this
  · rw [SparseArray.get_of_ge (by omega)] at hget
    cases hget

/-- Unbounded form of the dense-position clause of `Swf`. -/
theorem SparseSet.Swf.indices_sound {s : SparseSet V} (h : SparseSet.Swf s)
    {i : Nat} {k : Nat} (hidx : s.indices[i]? = some k) :
    s.sparse.get k = some i := by
  obtain ⟨hi, hval⟩ := List.getElem?_eq_some.mp hidx
  have := h.2.1 i (List.mem_range.mpr hi)
  rw [hidx] at this
  exact this

/-- A coherent sparse set has duplicate-free keys. -/
theorem SparseSet.Swf.nodup {s : SparseSet V} (h : SparseSet.Swf s) :
    s.indices.Nodup := by
  rw [List.nodup_iff_getElem?_ne_getElem?]
  intro i j hij hj
  intro hc
  cases hk : s.indices[i]? with
  | none =>
    rw [List.getElem?_eq_none_iff] at hk
    omega
  | some k =>
    rw [hk] at hc
    have h1 := h.indices_sound hk
    have h2 := h.indices_sound hc.symm
    rw [h1] at h2
    cases h2
    omega

/-- Membership in the keys is visibility through the sparse array. -/
theorem SparseSet.Swf.mem_indices_iff {s : SparseSet V} (h : SparseSet.Swf s)
    (k : Nat) : k ∈ s.indices ↔ (s.sparse.get k).isSome := by
  constructor
  · intro hk
    obtain ⟨i, hi, hval⟩ := List.mem_iff_getElem.mp hk
    have : s.indices[i]? = some k := by
      rw [List.getElem?_eq_getElem hi, hval]
    rw [h.indices_sound this]
    rfl
  · intro hk
    cases hget : s.sparse.get k with
    | none => rw [hget] at hk; cases hk
    | some j =>
      obtain ⟨hj, hjval⟩ := h.sparse_sound hget
      exact List.getElem?_mem hjval

theorem SparseSet.Swf.new : SparseSet.Swf (SparseSet.new (V := V)) := by
  constructor
  · rfl
  constructor
  · intro i hi
    simp [SparseSet.new] at hi
  · intro k hk
    simp [SparseSet.new, SparseArray.new] at hk

theorem listNodup_getElem?_inj {l : List α} (hnd : l.Nodup) {i j : Nat} {x : α}
    (hi : l[i]? = some x) (hj : l[j]? = some x) : i = j := by
  by_contra hne
  rcases Nat.lt_or_ge i j with hij | hij
  · have hjlen : j < l.length := (List.getElem?_eq_some.mp hj).1
    exact (List.nodup_iff_getElem?_ne_getElem?.mp hnd i j hij hjlen)
      (hi.trans hj.symm)
  · have hji : j < i := by omega
    have hilen : i < l.length := (List.getElem?_eq_some.mp hi).1
    exact (List.nodup_iff_getElem?_ne_getElem?.mp hnd j i hji hilen)
      (hj.trans hi.symm)

/-- `SparseSet::insert` preserves coherence; the key vector gains the key
exactly when it was absent. -/
theorem SparseSet.insert_wf {s : SparseSet V} (h : SparseSet.Swf s) {k : Nat}
    {v : V} {r : Option V} {s' : SparseSet V}
    (hins : s.insert k v = some (r, s')) :
    SparseSet.Swf s' ∧
      s'.indices = (if k ∈ s.indices then s.indices else s.indices ++ [k]) ∧
      s'.sparse.values.length =
        (if k ∈ s.indices then s.sparse.values.length
          else (s.sparse.insert k s.values.length).values.length) := by
  unfold SparseSet.insert at hins
  split at hins
  · rename_i i hget
    split at hins
    · rename_i old hold
      injection hins with hins'
      have hs' : s' = ⟨s.values.set i v, s.indices, s.sparse⟩ :=
        (congrArg Prod.snd hins').symm
      subst hs'
      have hkmem : k ∈ s.indices := (h.mem_indices_iff k).mpr (by rw [hget]; rfl)
      rw [if_pos hkmem, if_pos hkmem]
      refine ⟨⟨?_, h.2.1, h.2.2⟩, rfl, rfl⟩
      simpa using h.1
    · exact absurd hins (by simp)
  · rename_i hget
    injection hins with hins'
    have hs' : s' = ⟨s.values ++ [v], s.indices ++ [k],
        s.sparse.insert k s.values.length⟩ :=
      (congrArg Prod.snd hins').symm
    subst hs'
    have hknot : k ∉ s.indices := by
      rw [h.mem_indices_iff, hget]
      simp
    rw [if_neg hknot, if_neg hknot]
    have hlen : s.indices.length = s.values.length := h.1
    refine ⟨⟨by simp [hlen], ?_, ?_⟩, rfl, rfl⟩
    · -- every dense position is indexed by its key
      intro p hp
      simp only [List.length_append, List.length_cons, List.length_nil,
        List.mem_range] at hp
      by_cases hplt : p < s.indices.length
      · have hidx : (s.indices ++ [k])[p]? = s.indices[p]? := by
          rw [List.getElem?_append, if_pos hplt]
        rw [hidx]
        cases hkey : s.indices[p]? with
        | none =>
          rw [List.getElem?_eq_none_iff] at hkey
          omega
        | some key =>
          have hkey_ne : key ≠ k := by
            intro hc
            exact hknot (hc ▸ List.getElem?_mem hkey)
          unfold optSat
          simp only
          rw [SparseArray.get_insert, if_neg hkey_ne]
          exact h.indices_sound hkey
      · have hpe : p = s.indices.length := by omega
        subst hpe
        have hidx : (s.indices ++ [k])[s.indices.length]? = some k :=
          List.getElem?_concat_length _ _
        rw [hidx]
        unfold optSat
        simp only
        rw [SparseArray.get_insert, if_pos rfl, hlen]
    · -- every sparse entry points back at its key
      intro kk hkk
      rw [SparseArray.get_insert]
      by_cases hkkk : kk = k
      · subst hkkk
        rw [if_pos rfl]
        unfold optAll
        simp only [List.length_append, List.length_cons, List.length_nil]
        constructor
        · omega
        · rw [← hlen, List.getElem?_concat_length]
      · rw [if_neg hkkk]
        cases hgkk : s.sparse.get kk with
        | none => trivial
        | some j =>
          obtain ⟨hj, hjval⟩ := h.sparse_sound hgkk
          unfold optAll
          simp only [List.length_append, List.length_cons, List.length_nil]
          constructor
          · omega
          · rw [List.getElem?_append, if_pos hj]
            exact hjval

theorem SparseArray.remove_values_length (a : SparseArray V) (k : Nat) :
    (a.remove k).2.values.length = a.values.length := by
  unfold SparseArray.remove
  by_cases hk : k < a.values.length
  · rw [if_pos hk]
    simp
  · rw [if_neg hk]

/-- `SparseSet::remove` preserves coherence; the key vector loses exactly
the removed key. -/
theorem SparseSet.remove_wf {s : SparseSet V} (h : SparseSet.Swf s) {k : Nat}
    {r : Option V} {s' : SparseSet V} (hrem : s.remove k = some (r, s')) :
    SparseSet.Swf s' ∧ (∀ x, x ∈ s'.indices ↔ x ∈ s.indices ∧ x ≠ k) := by
  unfold SparseSet.remove at hrem
  split at hrem
  · -- the key was absent: only the (empty) sparse slot was taken
    rename_i sparse1 heq
    injection hrem with hrem'
    have hs' : s' = { s with sparse := sparse1 } := (congrArg Prod.snd hrem').symm
    subst hs'
    have hget : s.sparse.get k = none := by
      rw [← SparseArray.remove_fst s.sparse k, heq]
    have hknot : k ∉ s.indices := by
      rw [h.mem_indices_iff, hget]
      simp
    have hsp1 : sparse1 = (s.sparse.remove k).2 := by rw [heq]
    have hget1 : ∀ j, sparse1.get j = if j = k then none else s.sparse.get j := by
      intro j
      rw [hsp1, SparseArray.get_remove]
    refine ⟨⟨h.1, ?_, ?_⟩, ?_⟩
    · intro p hp
      simp only [List.mem_range] at hp
      cases hkey : s.indices[p]? with
      | none =>
        rw [List.getElem?_eq_none_iff] at hkey
        omega
      | some key =>
        unfold optSat
        simp only
        have hkeyne : key ≠ k := by
          intro hc
          exact hknot (hc ▸ List.getElem?_mem hkey)
        rw [hget1, if_neg hkeyne]
        exact h.indices_sound hkey
    · intro kk hkk
      rw [hget1]
      by_cases hkkk : kk = k
      · rw [if_pos hkkk]
        trivial
      · rw [if_neg hkkk]
        cases hgkk : s.sparse.get kk with
        | none => trivial
        | some j => exact h.sparse_sound hgkk
    · intro x
      constructor
      · intro hx
        exact ⟨hx, fun hc => hknot (hc ▸ hx)⟩
      · intro hx
        exact hx.1
  · -- the key was present at dense position `i`
    rename_i i sparse1 heq
    have hget : s.sparse.get k = some i := by
      rw [← SparseArray.remove_fst s.sparse k, heq]
    obtain ⟨hi, hk_at_i⟩ := h.sparse_sound hget
    have hsp1 : sparse1 = (s.sparse.remove k).2 := by rw [heq]
    have hget1 : ∀ j, sparse1.get j = if j = k then none else s.sparse.get j := by
      intro j
      rw [hsp1, SparseArray.get_remove]
    have hsp1len : sparse1.values.length = s.sparse.values.length := by
      rw [hsp1, SparseArray.remove_values_length]
    have hlen_vi : s.indices.length = s.values.length := h.1
    set m := s.indices.length with hm
    split at hrem
    · rename_i v0 values' k0 indices' hsv hsi
      have hvlen : values'.length + 1 = s.values.length := listSwapRemove_length hsv
      have hilen : indices'.length + 1 = s.indices.length := listSwapRemove_length hsi
      have hk0 : k0 = k := by
        obtain ⟨hii, last, hlastidx, hx, -, -⟩ := listSwapRemove_spec hsi
        have hkk : s.indices[i] = k := by
          rw [List.getElem?_eq_getElem hii] at hk_at_i
          exact Option.some.injEq .. ▸ hk_at_i
        rw [hx, hkk]
      rw [hk0] at hsi
      obtain ⟨hnd', hmem'⟩ := listSwapRemove_nodup_mem h.nodup hsi
      have hpos := listSwapRemove_getElem? hsi
      -- positions other than `i` keep their keys distinct from `k`
      have hkey_ne_k : ∀ p key, p ≠ i → s.indices[p]? = some key → key ≠ k := by
        intro p key hpi hkey hc
        subst hc
        exact hpi (listNodup_getElem?_inj h.nodup hkey hk_at_i)
      split at hrem
      · -- the removed position was the last: no back-patch
        rename_i hival
        injection hrem with hrem'
        have hs' : s' = ⟨values', indices', sparse1⟩ :=
          (congrArg Prod.snd hrem').symm
        subst hs'
        have hieq : i = m - 1 := by omega
        refine ⟨⟨by simp only; omega, ?_, ?_⟩, ?_⟩
        · intro p hp
          simp only [List.mem_range] at hp
          have hpi : p ≠ i := by omega
          cases hkey : indices'[p]? with
          | none =>
            rw [List.getElem?_eq_none_iff] at hkey
            omega
          | some key =>
            have hkey_old : s.indices[p]? = some key := by
              have := hpos p hp
              rw [if_neg hpi] at this
              rw [← this, hkey]
            unfold optSat
            simp only
            rw [hget1, if_neg (hkey_ne_k p key hpi hkey_old)]
            exact h.indices_sound hkey_old
        · intro kk hkk
          rw [hget1]
          by_cases hkkk : kk = k
          · rw [if_pos hkkk]
            trivial
          · rw [if_neg hkkk]
            cases hgkk : s.sparse.get kk with
            | none => trivial
            | some j =>
              obtain ⟨hj, hjval⟩ := h.sparse_sound hgkk
              have hji : j ≠ i := by
                intro hc
                rw [hc, hk_at_i] at hjval
                exact hkkk (Option.some.injEq .. ▸ hjval.symm)
              have hjlt : j < indices'.length := by omega
              refine ⟨hjlt, ?_⟩
              have := hpos j hjlt
              rw [if_neg hji] at this
              rw [this]
              exact hjval
        · intro x
          rw [hmem' x]
      · -- back-patch: the moved last element's sparse entry is re-pointed
        rename_i hine
        split at hrem
        · rename_i last_index hival
          injection hrem with hrem'
          have hs' : s' = ⟨values', indices', sparse1.update last_index i⟩ :=
            (congrArg Prod.snd hrem').symm
          subst hs'
          have hilt : i < indices'.length := by omega
          have hlast_idx : s.indices[m - 1]? = some last_index := by
            have := hpos i hilt
            rw [if_pos rfl] at this
            rw [← this, hival]
          have hlast_get : s.sparse.get last_index = some (m - 1) :=
            h.indices_sound hlast_idx
          have hine2 : i ≠ m - 1 := by omega
          have hlast_ne_k : last_index ≠ k := by
            intro hc
            subst hc
            exact hine2 (listNodup_getElem?_inj h.nodup hk_at_i hlast_idx)
          have hocc : (sparse1.get last_index).isSome := by
            rw [hget1, if_neg hlast_ne_k, hlast_get]
            rfl
          have hget2 : ∀ j, (sparse1.update last_index i).get j =
              if j = last_index then some i
              else if j = k then none else s.sparse.get j := by
            intro j
            rw [SparseArray.get_update]
            by_cases hj : j = last_index
            · subst hj
              rw [if_pos ⟨rfl, hocc⟩, if_pos rfl]
            · rw [if_neg (fun hc => hj hc.1), if_neg hj, hget1]
          refine ⟨⟨by simp only; omega, ?_, ?_⟩, ?_⟩
          · intro p hp
            simp only [List.mem_range] at hp
            by_cases hpi : p = i
            · subst hpi
              unfold optSat
              rw [hival]
              simp only
              rw [hget2, if_pos rfl]
            · cases hkey : indices'[p]? with
              | none =>
                rw [List.getElem?_eq_none_iff] at hkey
                omega
              | some key =>
                have hkey_old : s.indices[p]? = some key := by
                  have := hpos p hp
                  rw [if_neg hpi] at this
                  rw [← this, hkey]
                have hkey_ne_last : key ≠ last_index := by
                  intro hc
                  subst hc
                  have := listNodup_getElem?_inj h.nodup hkey_old hlast_idx
                  omega
                unfold optSat
                simp only
                rw [hget2, if_neg hkey_ne_last,
                  if_neg (hkey_ne_k p key hpi hkey_old)]
                exact h.indices_sound hkey_old
          · intro kk hkk
            rw [hget2]
            by_cases hkl : kk = last_index
            · rw [if_pos hkl]
              unfold optAll
              exact ⟨hilt, hkl ▸ hival⟩
            · rw [if_neg hkl]
              by_cases hkkk : kk = k
              · rw [if_pos hkkk]
                trivial
              · rw [if_neg hkkk]
                cases hgkk : s.sparse.get kk with
                | none => trivial
                | some j =>
                  obtain ⟨hj, hjval⟩ := h.sparse_sound hgkk
                  have hji : j ≠ i := by
                    intro hc
                    rw [hc, hk_at_i] at hjval
                    exact hkkk (Option.some.injEq .. ▸ hjval.symm)
                  have hjm : j ≠ m - 1 := by
                    intro hc
                    rw [hc, hlast_idx] at hjval
                    exact hkl (Option.some.injEq .. ▸ hjval.symm)
                  have hjlt : j < indices'.length := by omega
                  refine ⟨hjlt, ?_⟩
                  have := hpos j hjlt
                  rw [if_neg hji] at this
                  rw [this]
                  exact hjval
          · intro x
            rw [hmem' x]
        · exact absurd hrem (by simp)
    · exact absurd hrem (by simp)

/-! ## Claim theorems -/

/-- C10: for the frozen sparse structures, `contains` is a bounds check
rather than a presence check — `ImmutableSparseArray::contains(i)`, and with
it `ImmutableSparseSet::contains`, `Table::has_component` and
`Archetype::has_component_id`, return `true` for every index within the
length of the underlying slot array (including slots that were never
inserted, where `get` still returns `none`), and `false` only past that
length. -/
theorem frozen_contains_is_bounds_check :
    (∀ {V : Type} (a : ImmutableSparseArray V) (i : Nat),
      a.contains i = decide (i < a.values.length)) ∧
    (∀ {V : Type} (s : ImmutableSparseSet V) (i : Nat),
      s.contains i = decide (i < s.sparse.values.length)) ∧
    (∀ (t : Table) (id : ComponentId),
      t.has_component id = decide (id < t.columns.sparse.values.length)) ∧
    (∀ (a : Archetype) (id : ComponentId),
      a.has_component_id id = decide (id < a.table.columns.sparse.values.length)) ∧
    (∀ {V : Type} (a : ImmutableSparseArray V) (i : Nat),
      a.values[i]? = some none → a.contains i = true ∧ a.get i = none) := by
  have hbase : ∀ {V : Type} (a : ImmutableSparseArray V) (i : Nat),
      a.contains i = decide (i < a.values.length) := by
    intro V a i
    by_cases h : i < a.values.length
    · simp [ImmutableSparseArray.contains, List.getElem?_eq_getElem h, h]
    · have : a.values[i]? = none := by
        simp [List.getElem?_eq_none_iff]; omega
      simp [ImmutableSparseArray.contains, this, h]
  refine ⟨hbase, fun s i => hbase s.sparse i, fun t id => hbase t.columns.sparse id,
    fun a id => hbase a.table.columns.sparse id, ?_⟩
  intro V a i h
  constructor
  · simp [ImmutableSparseArray.contains, h]
  · simp [ImmutableSparseArray.get, h]

/-- C10 witness: a one-slot frozen array whose only slot was never filled
still reports `contains 0 = true` while `get 0 = none`. -/
theorem frozen_contains_is_bounds_check_witness :
    (ImmutableSparseArray.mk ([none] : List (Option Nat))).contains 0 = true ∧
    (ImmutableSparseArray.mk ([none] : List (Option Nat))).get 0 = none :=
  frozen_contains_is_bounds_check.2.2.2.2 ⟨[none]⟩ 0 rfl

/-- C8: `SparseSet::remove_at` never clears the removed key's sparse entry,
so the "indices agree with sparse" part of the claimed invariant is broken:
starting from the coherent set `{0 ↦ 10, 1 ↦ 20}`, `remove_at(0)` removes
the pair `(0, 10)` yet the resulting set still reports `contains 0 = true`,
`get 0` returns the *moved* element's value `20`, and the dense key vector
`[1]` disagrees with the sparse array (the coherence check `wfb` fails).
`insert` and `remove` are not at fault: the source's `remove` does clear the
sparse entry. -/
theorem sparse_set_remove_at_leaves_stale_sparse_entry :
    ((SparseSet.fromList [(0, 10), (1, 20)]).map SparseSet.wfb = some true) ∧
    ((SparseSet.fromList [(0, 10), (1, 20)]).bind fun s =>
      (s.remove_at 0).map fun p =>
        (p.1, p.2.contains 0, p.2.get 0, p.2.indices, p.2.wfb))
      = some (some (0, 10), true, some 20, [1], false) := by
  exact ⟨rfl, rfl⟩

theorem listGetD_set_self {l : List α} {i : Nat} (h : i < l.length) (a d : α) :
    (l.set i a).getD i d = a := by
  rw [List.getD_eq_getElem?_getD, List.getElem?_set_self (by simpa using h)]
  rfl

/-- C5 counterexample: the claim quantifies over *every* world state, but in
a world where resource type `R` was added once and removed, a second
`add_resource(r)` finds `R`'s type id already in the map and silently drops
`r` (`Resources::add` only installs a cell for an unseen type), so the
following `remove_resource` returns `none`, not `Some(r)`. -/
theorem resource_readd_after_remove_counterexample :
    ((World.new.add_resource 0 5).remove_resource 0).1 = some 5 ∧
    (((((World.new.add_resource 0 5).remove_resource 0).2.add_resource 0 7).remove_resource
      0).1 = none) := by
  exact ⟨rfl, rfl⟩

/-- C5 (amended): in a world whose resource map does not yet know `R`'s type
id, `add_resource(r)` followed by `remove_resource::<R>()` returns
`Some(r)`, and an immediately following second `remove_resource::<R>()`
returns `None`. -/
theorem resource_add_remove_roundtrip (w : World) (ty v : Nat)
    (h : alistLookup w.resources.map ty = none) :
    ((w.add_resource ty v).remove_resource ty).1 = some v ∧
    ((((w.add_resource ty v).remove_resource ty).2.remove_resource ty).1 = none) := by
  obtain ⟨A, ⟨⟨values⟩, rmap⟩, ents, fr⟩ := w
  simp only at h
  set n := values.length with hn
  have hadd : (World.mk A ⟨⟨values⟩, rmap⟩ ents fr).add_resource ty v
      = World.mk A ⟨⟨(values ++ [none]).set n (some ⟨v⟩)⟩, alistInsert rmap ty n⟩ ents fr := by
    simp [World.add_resource, Resources.add, h, SparseArray.insert, SparseArray.len,
      Nat.add_sub_cancel_left]
  have hlen1 : ((values ++ [(none : Option ResourceCell)]).set n (some ⟨v⟩)).length
      = n + 1 := by simp
  have hrem1 : ∀ (E : Entities) (F : Frame),
      (World.mk A ⟨⟨(values ++ [none]).set n (some ⟨v⟩)⟩, alistInsert rmap ty n⟩ E F).remove_resource ty
      = (some v, World.mk A ⟨⟨((values ++ [none]).set n (some ⟨v⟩)).set n none⟩,
          alistInsert rmap ty n⟩ E F) := by
    intro E F
    simp only [World.remove_resource, Resources.remove, alistLookup_insert_self,
      SparseArray.remove, hlen1]
    rw [if_pos (by omega)]
    rw [listGetD_set_self (by simp [hn]) _ none]
    simp
  have hlen2 : (((values ++ [(none : Option ResourceCell)]).set n (some ⟨v⟩)).set n none).length
      = n + 1 := by simp
  have hrem2 : ∀ (E : Entities) (F : Frame),
      ((World.mk A ⟨⟨((values ++ [none]).set n (some ⟨v⟩)).set n none⟩,
        alistInsert rmap ty n⟩ E F).remove_resource ty).1 = none := by
    intro E F
    simp only [World.remove_resource, Resources.remove, alistLookup_insert_self,
      SparseArray.remove, hlen2]
    rw [if_pos (by omega)]
    rw [listGetD_set_self (by simp [hn]) none none]
    simp
  refine ⟨?_, ?_⟩
  · rw [hadd, hrem1]
  · rw [hadd, hrem1]
    exact hrem2 ents fr

/-- C5 witness: the round trip on a fresh world. -/
theorem resource_add_remove_roundtrip_witness :
    ((World.new.add_resource 3 5).remove_resource 3).1 = some 5 ∧
    ((((World.new.add_resource 3 5).remove_resource 3).2.remove_resource 3).1 = none) :=
  resource_add_remove_roundtrip World.new 3 5 rfl

/-- C2: a declared two-system cycle in one phase (`s1.before(s2)` and
`s2.before(s1)`, i.e. each config lists the other's id in its
dependencies) does **not** make `Schedule::build` return
`CyclicDependency` — `build` cycle-checks only the two phase-level DAGs
(and even the phase-ordering check returns `CyclicHierarchy`), never the
per-phase system graph, so it returns a runnable `Systems` handle whose
sequential executor runs both systems in submission order (the
reversed-enumeration loop of `GraphInfo::new` records no edge between
them). -/
theorem schedule_build_ignores_system_cycle :
    Schedule.build
      ((Schedule.new .sequential).add_systems "main"
        [⟨0, "s1", false, true, [1], []⟩, ⟨1, "s2", false, true, [0], []⟩])
    = .ok ⟨.sequential,
        ⟨[⟨"main", .sequential ⟨["s1", "s2"], [0, 1]⟩⟩], []⟩,
        ⟨[0], []⟩, [("main", 0)]⟩ := by
  rfl

/-- C1: `Archetypes::add_component` stamps a freshly constructed cell, not
the spec's add/remove algorithm.  On a world at frame 1, the first
`add_component` of a registered component stores the stamp
`{added = 1, modified = 0}` (the claim requires `modified = 1`); re-adding
the component at frame 2 stores `{added = 0, modified = 2}` — the previous
`added = 1` is discarded along with the old cell (the claim requires
`added` to be preserved). -/
theorem add_component_stamps_fresh_cell :
    (do
      let w1 := (World.new.register 0).2
      let p ← w1.spawn
      let w3 ← p.2.add_component 0 p.1 5
      let t1 ← w3.archetypes.component_tracker 0 p.1
      let w4 ← (({ w3 with frame := 2 } : World).add_component 0 p.1 7)
      let t2 ← w4.archetypes.component_tracker 0 p.1
      pure (t1, t2)) =
    some (⟨1, 0⟩, ⟨0, 2⟩) := by
  rfl

/-- C3: the freshness test used by `Added<C>` and `Modified<C>` yields a row
iff `system_last < stamp ≤ current`; a stamp equal to `Frame::ZERO` is never
newer, so a row whose `added` (resp. `modified`) stamp is `ZERO` is never
yielded. -/
theorem freshness_filter_semantics :
    (∀ stamp current system : Frame,
      Frame.is_newer stamp current system = true ↔
        system < stamp ∧ stamp ≤ current) ∧
    (∀ current system : Frame, Frame.is_newer Frame.zero current system = false) ∧
    (∀ (st : AddedComponent) (col : Column) (row : Nat) (tr : ObjectTracker),
      st.reader = some col → col.frames[row]? = some tr →
      Added.get st row = Frame.is_newer tr.added st.current_frame st.system_frame) ∧
    (∀ (st : ModifiedComponent) (col : Column) (row : Nat) (tr : ObjectTracker),
      st.reader = some col → col.frames[row]? = some tr →
      Modified.get st row = Frame.is_newer tr.modified st.current_frame st.system_frame) ∧
    (∀ (st : AddedComponent) (col : Column) (row : Nat) (tr : ObjectTracker),
      st.reader = some col → col.frames[row]? = some tr → tr.added = Frame.zero →
      Added.get st row = false) ∧
    (∀ (st : ModifiedComponent) (col : Column) (row : Nat) (tr : ObjectTracker),
      st.reader = some col → col.frames[row]? = some tr → tr.modified = Frame.zero →
      Modified.get st row = false) := by
  have hiff : ∀ stamp current system : Frame,
      Frame.is_newer stamp current system = true ↔
        system < stamp ∧ stamp ≤ current := by
    intro stamp current system
    simp [Frame.is_newer]
  have hzero : ∀ current system : Frame,
      Frame.is_newer Frame.zero current system = false := by
    intro current system
    simp [Frame.is_newer, Frame.zero]
  have hadd : ∀ (st : AddedComponent) (col : Column) (row : Nat) (tr : ObjectTracker),
      st.reader = some col → col.frames[row]? = some tr →
      Added.get st row = Frame.is_newer tr.added st.current_frame st.system_frame := by
    intro st col row tr h1 h2
    simp [Added.get, h1, h2]
  have hmod : ∀ (st : ModifiedComponent) (col : Column) (row : Nat) (tr : ObjectTracker),
      st.reader = some col → col.frames[row]? = some tr →
      Modified.get st row = Frame.is_newer tr.modified st.current_frame st.system_frame := by
    intro st col row tr h1 h2
    simp [Modified.get, h1, h2]
  refine ⟨hiff, hzero, hadd, hmod, ?_, ?_⟩
  · intro st col row tr h1 h2 h3
    rw [hadd st col row tr h1 h2, h3, hzero]
  · intro st col row tr h1 h2 h3
    rw [hmod st col row tr h1 h2, h3, hzero]

/-- C3 witness: a concrete filter state at stamp 2, system-last 1,
current 3. -/
theorem freshness_filter_semantics_witness :
    Added.get ⟨some ⟨[7], [⟨2, 0⟩]⟩, 3, 1⟩ 0 =
      Frame.is_newer 2 3 1 ∧
    Frame.is_newer 2 3 1 = true ∧
    Modified.get ⟨some ⟨[7], [⟨2, 0⟩]⟩, 3, 1⟩ 0 = false :=
  ⟨freshness_filter_semantics.2.2.1 ⟨some ⟨[7], [⟨2, 0⟩]⟩, 3, 1⟩ ⟨[7], [⟨2, 0⟩]⟩ 0
      ⟨2, 0⟩ rfl rfl,
    (freshness_filter_semantics.1 2 3 1).mpr (by decide),
    freshness_filter_semantics.2.2.2.2.2 ⟨some ⟨[7], [⟨2, 0⟩]⟩, 3, 1⟩ ⟨[7], [⟨2, 0⟩]⟩ 0
      ⟨2, 0⟩ rfl rfl rfl⟩

/-- C4: `Added::<C>::init` and `Modified::<C>::init` leave the query's
include and exclude sets untouched, so archetype selection
(`Archetypes::query`) is unaffected by these filter terms; a row whose
archetype lacks a `C` column is filtered out (`get` returns `false`), not an
error. -/
theorem added_modified_filters_row_level_only :
    (∀ (comps : Components) (ty : Nat) (q : ArchetypeQuery)
      (r : ComponentId × ArchetypeQuery),
      Added.init comps ty q = some r → r.2 = q) ∧
    (∀ (comps : Components) (ty : Nat) (q : ArchetypeQuery)
      (r : ComponentId × ArchetypeQuery),
      Modified.init comps ty q = some r → r.2 = q) ∧
    (∀ (comps : Components) (ty : Nat) (q : ArchetypeQuery)
      (r : ComponentId × ArchetypeQuery) (A : Archetypes),
      Added.init comps ty q = some r → A.query r.2 = A.query q) ∧
    (∀ (comps : Components) (ty : Nat) (q : ArchetypeQuery)
      (r : ComponentId × ArchetypeQuery) (A : Archetypes),
      Modified.init comps ty q = some r → A.query r.2 = A.query q) ∧
    (∀ (id : ComponentId) (arch : Archetype) (cur sys : Frame) (row : Nat),
      arch.table.get_column id = none →
      Added.get (Added.state id arch cur sys) row = false) ∧
    (∀ (id : ComponentId) (arch : Archetype) (cur sys : Frame) (row : Nat),
      arch.table.get_column id = none →
      Modified.get (Modified.state id arch cur sys) row = false) := by
  have hA : ∀ (comps : Components) (ty : Nat) (q : ArchetypeQuery)
      (r : ComponentId × ArchetypeQuery),
      Added.init comps ty q = some r → r.2 = q := by
    intro comps ty q r h
    unfold Added.init at h
    cases hid : comps.get_id ty with
    | none => rw [hid] at h; simp at h
    | some id => rw [hid] at h; simp at h; rw [← h]
  have hM : ∀ (comps : Components) (ty : Nat) (q : ArchetypeQuery)
      (r : ComponentId × ArchetypeQuery),
      Modified.init comps ty q = some r → r.2 = q := by
    intro comps ty q r h
    unfold Modified.init at h
    cases hid : comps.get_id ty with
    | none => rw [hid] at h; simp at h
    | some id => rw [hid] at h; simp at h; rw [← h]
  refine ⟨hA, hM, ?_, ?_, ?_, ?_⟩
  · intro comps ty q r A h
    rw [hA comps ty q r h]
  · intro comps ty q r A h
    rw [hM comps ty q r h]
  · intro id arch cur sys row h
    simp [Added.get, Added.state, h]
  · intro id arch cur sys row h
    simp [Modified.get, Modified.state, h]

/-- C4 witness: with one registered component, `Added::init` hands the query
back unchanged and an archetype without the column yields nothing. -/
theorem added_modified_filters_row_level_only_witness :
    (((0 : ComponentId), ArchetypeQuery.default).2 = ArchetypeQuery.default) ∧
    Archetypes.new.query ((0 : ComponentId), ArchetypeQuery.default).2 =
      Archetypes.new.query ArchetypeQuery.default ∧
    Added.get (Added.state 0 ⟨0, Table.empty, FixedBitSet.new⟩ 1 0) 0 = false :=
  ⟨added_modified_filters_row_level_only.1 (Components.new.register 0).2 0
      ArchetypeQuery.default (0, ArchetypeQuery.default) rfl,
    added_modified_filters_row_level_only.2.2.1 (Components.new.register 0).2 0
      ArchetypeQuery.default (0, ArchetypeQuery.default) Archetypes.new rfl,
    added_modified_filters_row_level_only.2.2.2.2.1 0
      ⟨0, Table.empty, FixedBitSet.new⟩ 1 0 0 rfl⟩

/-- C9: `World::despawn` on a handle that is not live returns `None` yet
still pushes the handle's id onto the allocator free list
(`Entities::despawn` checks nothing); concretely, on a fresh world,
despawning the never-issued handle `(0, 0)` while `(0, 1)` is live returns
`None`, and the next spawn returns `(0, 2)` — an entity sharing its id with
the distinct, still-live `(0, 1)`. -/
theorem despawn_dead_handle_frees_live_id :
    (∀ (w : World) (e : Entity),
      alistLookup w.archetypes.entity_map e = none →
      World.despawn w e = some (none,
        { w with entities :=
            { w.entities with free := w.entities.free ++ [e.id] } })) ∧
    ((do
      let p ← World.new.spawn
      let q ← p.2.despawn ⟨0, 0⟩
      let r ← q.2.spawn
      pure (p.1, q.1, r.1, alistLookup r.2.archetypes.entity_map p.1)) =
    some (⟨0, 1⟩, none, ⟨0, 2⟩, some 0)) := by
  refine ⟨?_, rfl⟩
  intro w e h
  simp [World.despawn, Archetypes.remove_entity, alistRemove_eq_none h,
    Entities.despawn]

/-- C9 witness: despawning an unknown handle on a fresh world. -/
theorem despawn_dead_handle_frees_live_id_witness :
    World.despawn World.new ⟨4, 1⟩ = some (none,
      { World.new with entities :=
          { World.new.entities with free := World.new.entities.free ++ [4] } }) :=
  despawn_dead_handle_frees_live_id.1 World.new ⟨4, 1⟩ rfl

/-- After a successful `Archetypes::remove_entity` on a map with
duplicate-free keys, the surviving keys come from the old map and the
removed entity keys no entry. -/
theorem archetypes_remove_entity_keys {A : Archetypes} {e : Entity}
    {pr : Option (ArchetypeId × Row) × Archetypes}
    (hnd : (A.entity_map.map Prod.fst).Nodup)
    (h : A.remove_entity e = some pr) :
    (∀ x ∈ pr.2.entity_map.map Prod.fst, x ∈ A.entity_map.map Prod.fst) ∧
      e ∉ pr.2.entity_map.map Prod.fst := by
  unfold Archetypes.remove_entity at h
  split at h
  · rename_i hr
    injection h with h'
    subst h'
    exact ⟨fun x hx => hx,
      (alistLookup_eq_none_iff _ e).mp (alistLookup_eq_none_of_remove_none hr)⟩
  · rename_i aid map' hr
    have hsub := alistRemove_keys_subset hr
    have hnotmem := alistRemove_nodup_not_mem hnd hr
    split at h
    · exact absurd h (by simp)
    · rename_i arch harch
      split at h
      · exact absurd h (by simp)
      · injection h with h'
        subst h'
        exact ⟨hsub, hnotmem⟩
      · rename_i row table' htab
        injection h with h'
        subst h'
        exact ⟨hsub, hnotmem⟩

/-- After a successful `Archetypes::add_entity`, every key of the resulting
entity map is the added entity or an old key. -/
theorem archetypes_add_entity_keys {A : Archetypes} {e : Entity}
    {q : ArchetypeId × Archetypes} (h : A.add_entity e = some q) :
    ∀ x ∈ q.2.entity_map.map Prod.fst, x = e ∨ x ∈ A.entity_map.map Prod.fst := by
  unfold Archetypes.add_entity at h
  split at h
  · rename_i aid hlk
    injection h with h'
    subst h'
    exact fun x hx => Or.inr hx
  · rename_i hlk
    split at h
    · exact absurd h (by simp)
    · rename_i arch h0
      cases htb : arch.table.add_entity e Row.new with
      | none => rw [htb] at h; exact absurd h (by simp)
      | some table' =>
        rw [htb] at h
        simp only [Option.map_some', Option.some.injEq] at h
        subst h
        simp only
        exact alistInsert_keys_subset A.entity_map e 0

/-- C7: generation safety.  In a world whose allocator records generation
`g ≥ e.generation` for `e`'s id slot, whose live entities on that slot have
generation at most `g`, and whose entity map has duplicate-free keys,
`despawn(e)` followed immediately by a spawn (which pops `e.id` off the free
list, reusing the slot) yields an entity with the same id and a strictly
larger generation, and the old handle `e` matches no live entity of the
resulting world. -/
theorem generation_safety (w : World) (e : Entity) (g : Nat)
    (res : Option (ArchetypeId × Row)) (w1 : World) (e' : Entity) (w2 : World)
    (hgen : alistLookup w.entities.generations e.id = some g)
    (hle : e.generation ≤ g)
    (hnd : (w.archetypes.entity_map.map Prod.fst).Nodup)
    (hdesp : World.despawn w e = some (res, w1))
    (hspawn : World.spawn w1 = some (e', w2)) :
    e'.id = e.id ∧ e.generation < e'.generation ∧ e' ≠ e ∧
    ∀ p ∈ w2.archetypes.entity_map, p.1 ≠ e := by
  -- Unpack the despawn: `w1` is `w` with the id pushed on the free list and
  -- the entity-map entry for `e` gone.
  unfold World.despawn at hdesp
  cases hrem : w.archetypes.remove_entity e with
  | none => rw [hrem] at hdesp; simp at hdesp
  | some pr =>
    rw [hrem] at hdesp
    simp only [Option.map_some', Option.some.injEq, Prod.mk.injEq] at hdesp
    obtain ⟨-, hw1⟩ := hdesp
    have hA' := archetypes_remove_entity_keys hnd hrem
    -- Unpack the spawn: the free list ends with `e.id`, so the slot is
    -- reused at generation `g + 1`.
    have hfree : w1.entities.free = w.entities.free ++ [e.id] := by
      rw [← hw1]; simp [Entities.despawn]
    have hgens : w1.entities.generations = w.entities.generations := by
      rw [← hw1]; simp [Entities.despawn]
    have harch1 : w1.archetypes = pr.2 := by rw [← hw1]
    have hspawned : w1.entities.spawn =
        (⟨e.id, g + 1⟩, { w1.entities with
          free := w1.entities.free.dropLast,
          generations := alistInsert w1.entities.generations e.id (g + 1) }) := by
      unfold Entities.spawn
      rw [hfree, List.getLast?_concat, hgens]
      simp [hgen]
    unfold World.spawn at hspawn
    simp only [hspawned] at hspawn
    cases hadd : w1.archetypes.add_entity ⟨e.id, g + 1⟩ with
    | none => rw [hadd] at hspawn; simp at hspawn
    | some q =>
      rw [hadd] at hspawn
      simp only [Option.map_some', Option.some.injEq, Prod.mk.injEq] at hspawn
      obtain ⟨he', hw2⟩ := hspawn
      have he'2 : e' = ⟨e.id, g + 1⟩ := he'.symm
      have hne : e' ≠ e := by
        rw [he'2]
        intro hcon
        have : g + 1 = e.generation := congrArg Entity.generation hcon
        omega
      refine ⟨by rw [he'2], by rw [he'2]; simp; omega, hne, ?_⟩
      -- The post-spawn entity map contains only the new handle and survivors.
      have hkeys := archetypes_add_entity_keys hadd
      rw [harch1] at hkeys
      intro p hp hpe
      rw [← hw2] at hp
      have hx := hkeys p.1 (by simpa using List.mem_map_of_mem Prod.fst hp)
      rcases hx with hx | hx
      · rw [hpe] at hx
        have : e.generation = g + 1 := congrArg Entity.generation hx
        omega
      · rw [hpe] at hx
        exact hA'.2 hx

/-- C7 witness: spawn, despawn and respawn on a fresh world — the slot `0`
is reused at generation 2 and the old handle `(0, 1)` is dead. -/
theorem generation_safety_witness :
    (Entity.mk 0 2).id = (Entity.mk 0 1).id ∧
    (Entity.mk 0 1).generation < (Entity.mk 0 2).generation ∧
    (Entity.mk 0 2) ≠ (Entity.mk 0 1) ∧
    ∀ p ∈ (World.mk
      ⟨[⟨0, ⟨[⟨0, 2⟩], ⟨[], [], ⟨[]⟩⟩⟩, ⟨[]⟩⟩], [([], 0)], [(⟨0, 2⟩, 0)],
        ⟨[], []⟩, ⟨[]⟩⟩
      ⟨⟨[]⟩, []⟩ ⟨1, [], [(0, 2)]⟩ 1).archetypes.entity_map,
      p.1 ≠ Entity.mk 0 1 :=
  generation_safety
    (World.mk
      ⟨[⟨0, ⟨[⟨0, 1⟩], ⟨[], [], ⟨[]⟩⟩⟩, ⟨[]⟩⟩], [([], 0)], [(⟨0, 1⟩, 0)],
        ⟨[], []⟩, ⟨[]⟩⟩
      ⟨⟨[]⟩, []⟩ ⟨1, [], [(0, 1)]⟩ 1)
    ⟨0, 1⟩ 1 (some (0, ⟨[], [], ⟨[]⟩⟩))
    (World.mk
      ⟨[⟨0, ⟨[], ⟨[], [], ⟨[]⟩⟩⟩, ⟨[]⟩⟩], [([], 0)], [],
        ⟨[], []⟩, ⟨[]⟩⟩
      ⟨⟨[]⟩, []⟩ ⟨1, [0], [(0, 1)]⟩ 1)
    ⟨0, 2⟩
    (World.mk
      ⟨[⟨0, ⟨[⟨0, 2⟩], ⟨[], [], ⟨[]⟩⟩⟩, ⟨[]⟩⟩], [([], 0)], [(⟨0, 2⟩, 0)],
        ⟨[], []⟩, ⟨[]⟩⟩
      ⟨⟨[]⟩, []⟩ ⟨1, [], [(0, 2)]⟩ 1)
    rfl (by decide) (by decide) rfl rfl

/-! ## Helper lemmas toward the table-alignment invariant -/

/-- Appending a fresh element keeps a list duplicate-free. -/
theorem listNodup_concat {l : List α} {a : α} (h : l.Nodup) (h2 : a ∉ l) :
    (l ++ [a]).Nodup :=
  List.nodup_append.mpr ⟨h, List.nodup_singleton a,
    fun _ hx hxa => h2 ((List.mem_singleton.mp hxa) ▸ hx)⟩

/-- `findIdx?` returns a position whose element satisfies the predicate. -/
theorem listFindIdxAux_spec {p : α → Bool} {l : List α} :
    ∀ {i j : Nat}, l.findIdx? p i = some j →
      i ≤ j ∧ j - i < l.length ∧ optSat l[j - i]? (fun x => p x = true) := by
  induction l with
  | nil =>
    intro i j h
    rw [List.findIdx?_nil] at h
    cases h
  | cons x xs ih =>
    intro i j h
    rw [List.findIdx?_cons] at h
    by_cases hp : p x = true
    · rw [if_pos hp] at h
      injection h with h
      subst h
      refine ⟨Nat.le_refl _, by simp, ?_⟩
      simp [optSat, hp]
    · rw [if_neg hp] at h
      obtain ⟨h1, h2, h3⟩ := ih h
      refine ⟨by omega, by simp; omega, ?_⟩
      have hji : j - i = (j - (i + 1)) + 1 := by omega
      rw [hji]
      simpa using h3

/-- `findIdx? (· == e)` finds `e` itself. -/
theorem listFindIdx_beq_spec [DecidableEq α] {l : List α} {e : α} {idx : Nat}
    (h : l.findIdx? (fun x => x == e) 0 = some idx) :
    idx < l.length ∧ l[idx]? = some e := by
  obtain ⟨-, h2, h3⟩ := listFindIdxAux_spec h
  rw [Nat.sub_zero] at h2 h3
  refine ⟨h2, ?_⟩
  cases hx : l[idx]? with
  | none => rw [hx] at h3; cases h3
  | some y =>
    rw [hx] at h3
    unfold optSat at h3
    simp only [beq_iff_eq] at h3
    rw [h3]

/-- Insertion-sort insertion adds exactly the inserted element. -/
theorem insertNat_mem (x a : Nat) (l : List Nat) :
    x ∈ insertNat a l ↔ x = a ∨ x ∈ l := by
  induction l with
  | nil => simp [insertNat]
  | cons y ys ih =>
    unfold insertNat
    by_cases h : a ≤ y
    · rw [if_pos h]
      simp
    · rw [if_neg h]
      simp [List.mem_cons, ih]
      tauto

/-- Sorting preserves the element set. -/
theorem sortNat_mem (x : Nat) (l : List Nat) : x ∈ sortNat l ↔ x ∈ l := by
  unfold sortNat
  induction l with
  | nil => simp
  | cons y ys ih =>
    simp [insertNat_mem, ih]

/-- Head step of `alistLookup` at the head's own key. -/
theorem alistLookup_cons_self [DecidableEq κ] (k : κ) (v0 : ν)
    (rest : List (κ × ν)) : alistLookup ((k, v0) :: rest) k = some v0 := by
  simp [alistLookup]

/-- Head step of `alistInsert` at the head's own key. -/
theorem alistInsert_cons_self [DecidableEq κ] (k : κ) (v v0 : ν)
    (rest : List (κ × ν)) :
    alistInsert ((k, v0) :: rest) k v = (k, v) :: rest := by
  simp [alistInsert]

/-- A successful lookup pinpoints a list entry. -/
theorem alistLookup_mem [DecidableEq κ] {l : List (κ × ν)} {k : κ} {v : ν}
    (h : alistLookup l k = some v) : (k, v) ∈ l := by
  induction l with
  | nil => cases h
  | cons p rest ih =>
    obtain ⟨pk, pv⟩ := p
    by_cases hp : pk = k
    · subst hp
      rw [alistLookup_cons_self] at h
      injection h with h
      subst h
      exact List.mem_cons_self _ _
    · simp only [alistLookup, if_neg hp] at h
      exact List.mem_cons_of_mem _ (ih h)

/-- With duplicate-free keys, every list entry is found by lookup. -/
theorem alistLookup_of_mem [DecidableEq κ] {l : List (κ × ν)} {k : κ} {v : ν}
    (hnd : (l.map Prod.fst).Nodup) (h : (k, v) ∈ l) :
    alistLookup l k = some v := by
  induction l with
  | nil => cases h
  | cons p rest ih =>
    obtain ⟨pk, pv⟩ := p
    simp only [List.map_cons, List.nodup_cons] at hnd
    rcases List.mem_cons.mp h with h1 | h1
    · injection h1 with e1 e2
      subst e1
      subst e2
      simp [alistLookup]
    · by_cases hp : pk = k
      · subst hp
        exact absurd (List.mem_map_of_mem Prod.fst h1) hnd.1
      · simp [alistLookup, hp, ih hnd.2 h1]

/-- Removal yields a sublist. -/
theorem alistRemove_sublist [DecidableEq κ] {l : List (κ × ν)} {k : κ} {v : ν}
    {l' : List (κ × ν)} (h : alistRemove l k = some (v, l')) : l'.Sublist l := by
  induction l generalizing v l' with
  | nil => cases h
  | cons p rest ih =>
    obtain ⟨pk, pv⟩ := p
    by_cases hp : pk = k
    · subst hp
      simp only [alistRemove, if_pos rfl, Option.some.injEq, Prod.mk.injEq] at h
      obtain ⟨-, rfl⟩ := h
      exact (List.Sublist.refl _).cons _
    · simp only [alistRemove, if_neg hp] at h
      cases hr : alistRemove rest k with
      | none => rw [hr] at h; cases h
      | some pr =>
        obtain ⟨v0, rest'⟩ := pr
        rw [hr] at h
        simp only [Option.map_some', Option.some.injEq, Prod.mk.injEq] at h
        obtain ⟨rfl, rfl⟩ := h
        exact (ih hr).cons₂ _

/-- Removal keeps lookups at every other key. -/
theorem alistRemove_lookup_other [DecidableEq κ] {l : List (κ × ν)} {k : κ}
    {v : ν} {l' : List (κ × ν)} (h : alistRemove l k = some (v, l')) :
    ∀ k', k' ≠ k → alistLookup l' k' = alistLookup l k' := by
  induction l generalizing v l' with
  | nil => cases h
  | cons p rest ih =>
    obtain ⟨pk, pv⟩ := p
    by_cases hp : pk = k
    · subst hp
      simp only [alistRemove, if_pos rfl, Option.some.injEq, Prod.mk.injEq] at h
      obtain ⟨-, rfl⟩ := h
      intro k' hk'
      have hne : ¬ pk = k' := fun hc => hk' hc.symm
      simp [alistLookup, hne]
    · simp only [alistRemove, if_neg hp] at h
      cases hr : alistRemove rest k with
      | none => rw [hr] at h; cases h
      | some pr =>
        obtain ⟨v0, rest'⟩ := pr
        rw [hr] at h
        simp only [Option.map_some', Option.some.injEq, Prod.mk.injEq] at h
        obtain ⟨rfl, rfl⟩ := h
        intro k' hk'
        by_cases hpk : pk = k'
        · subst hpk
          simp [alistLookup]
        · simp [alistLookup, hpk, ih hr k' hk']

/-- With duplicate-free keys, removal clears the removed key's lookup. -/
theorem alistRemove_lookup_self [DecidableEq κ] {l : List (κ × ν)} {k : κ}
    {v : ν} {l' : List (κ × ν)} (hnd : (l.map Prod.fst).Nodup)
    (h : alistRemove l k = some (v, l')) : alistLookup l' k = none :=
  (alistLookup_eq_none_iff _ _).mpr (alistRemove_nodup_not_mem hnd h)

/-- Key uniqueness is preserved by insert. -/
theorem alistInsert_keys_nodup [DecidableEq κ] {l : List (κ × ν)}
    (hnd : (l.map Prod.fst).Nodup) (k : κ) (v : ν) :
    ((alistInsert l k v).map Prod.fst).Nodup := by
  induction l with
  | nil => simp [alistInsert]
  | cons p rest ih =>
    obtain ⟨pk, pv⟩ := p
    simp only [List.map_cons, List.nodup_cons] at hnd
    by_cases hp : pk = k
    · subst hp
      rw [alistInsert_cons_self]
      simp only [List.map_cons, List.nodup_cons]
      exact ⟨hnd.1, hnd.2⟩
    · simp only [alistInsert, if_neg hp, List.map_cons, List.nodup_cons]
      refine ⟨?_, ih hnd.2⟩
      intro hc
      rcases alistInsert_keys_subset rest k v pk hc with h1 | h1
      · exact hp h1
      · exact hnd.1 h1

/-- With duplicate-free keys, an entry of the inserted list is either the
inserted pair or an untouched old entry with a different key. -/
theorem alistInsert_mem [DecidableEq κ] {l : List (κ × ν)} {k : κ} {v : ν}
    (hnd : (l.map Prod.fst).Nodup) :
    ∀ p ∈ alistInsert l k v, p = (k, v) ∨ (p ∈ l ∧ p.1 ≠ k) := by
  induction l with
  | nil =>
    intro p hp
    simp only [alistInsert, List.mem_singleton] at hp
    exact Or.inl hp
  | cons q rest ih =>
    obtain ⟨qk, qv⟩ := q
    simp only [List.map_cons, List.nodup_cons] at hnd
    intro p hp
    by_cases hq : qk = k
    · subst hq
      rw [alistInsert_cons_self] at hp
      rcases List.mem_cons.mp hp with hp | hp
      · exact Or.inl hp
      · refine Or.inr ⟨List.mem_cons_of_mem _ hp, ?_⟩
        intro hc
        exact hnd.1 (hc ▸ List.mem_map_of_mem Prod.fst hp)
    · simp only [alistInsert, if_neg hq, List.mem_cons] at hp
      rcases hp with hp | hp
      · subst hp
        exact Or.inr ⟨List.mem_cons_self _ _, hq⟩
      · rcases ih hnd.2 p hp with h1 | h1
        · exact Or.inl h1
        · exact Or.inr ⟨List.mem_cons_of_mem _ h1.1, h1.2⟩

/-- The dense payloads after an insert are old payloads or the new value. -/
theorem SparseSet.insert_values_sub {s : SparseSet V} {k : Nat} {v : V}
    {r : Option V} {s' : SparseSet V} (hins : s.insert k v = some (r, s')) :
    ∀ w ∈ s'.values, w ∈ s.values ∨ w = v := by
  unfold SparseSet.insert at hins
  split at hins
  · rename_i i hget
    split at hins
    · rename_i old hold
      injection hins with hins'
      have hs' : s' = ⟨s.values.set i v, s.indices, s.sparse⟩ :=
        (congrArg Prod.snd hins').symm
      subst hs'
      intro w hw
      exact List.mem_or_eq_of_mem_set hw
    · exact absurd hins (by simp)
  · injection hins with hins'
    have hs' : s' = ⟨s.values ++ [v], s.indices ++ [k],
        s.sparse.insert k s.values.length⟩ := (congrArg Prod.snd hins').symm
    subst hs'
    intro w hw
    rcases List.mem_append.mp hw with h1 | h1
    · exact Or.inl h1
    · exact Or.inr (List.mem_singleton.mp h1)

/-- A column swap-remove at an in-bounds row always succeeds and shortens
both parallel vectors by one. -/
theorem Column.swap_remove_success {c : Column} {idx : Nat}
    (hd : idx < c.data.length) (hf : idx < c.frames.length) :
    ∃ cell col', c.swap_remove idx = some (some cell, col') ∧
      col'.data.length + 1 = c.data.length ∧
      col'.frames.length + 1 = c.frames.length := by
  unfold Column.swap_remove
  rw [if_neg (by omega)]
  obtain ⟨d, data', hsd⟩ := listSwapRemove_isSome hd
  obtain ⟨f, frames', hsf⟩ := listSwapRemove_isSome hf
  rw [hsd, hsf]
  exact ⟨⟨d, f⟩, ⟨data', frames'⟩, rfl,
    listSwapRemove_length hsd, listSwapRemove_length hsf⟩

/-- The add loop: one output column per input, each one cell longer. -/
theorem tableAddCells_spec {l : List (ComponentId × Column)} {row : Row}
    {vals : List Column} {n : Nat}
    (hall : ∀ p ∈ l, p.2.data.length = n ∧ p.2.frames.length = n)
    (h : tableAddCells l row = some vals) :
    vals.length = l.length ∧
      ∀ c ∈ vals, c.data.length = n + 1 ∧ c.frames.length = n + 1 := by
  induction l generalizing row vals with
  | nil =>
    simp only [tableAddCells] at h
    injection h with h
    subst h
    exact ⟨rfl, fun c hc => absurd hc (List.not_mem_nil c)⟩
  | cons p rest ih =>
    obtain ⟨id, col⟩ := p
    have hcol := hall (id, col) (List.mem_cons_self _ _)
    simp only [tableAddCells] at h
    split at h
    · rename_i cell row' heq
      cases hrec : tableAddCells rest row' with
      | none => rw [hrec] at h; cases h
      | some vals' =>
        rw [hrec] at h
        simp only [Option.map_some'] at h
        injection h with h
        subst h
        obtain ⟨hlen, hcols⟩ :=
          ih (fun q hq => hall q (List.mem_cons_of_mem _ hq)) hrec
        refine ⟨by simp [hlen], ?_⟩
        intro c hc
        rcases List.mem_cons.mp hc with hc | hc
        · subst hc
          simp [Column.push_cell, hcol.1, hcol.2]
        · exact hcols c hc
    · rename_i heq
      cases h
    · rename_i heq
      cases h

/-- The remove loop under a coherent accumulator and aligned columns: one
output column per input, each one cell shorter; the collected bag stays
coherent and gains exactly the loop's component ids. -/
theorem tableRemoveCells_spec {l : List (ComponentId × Column)} {idx n : Nat} :
    ∀ {row0 row : Row} {vals : List Column}, SparseSet.Swf row0 →
      (∀ p ∈ l, p.2.data.length = n + 1 ∧ p.2.frames.length = n + 1) →
      idx ≤ n →
      tableRemoveCells l idx row0 = some (vals, row) →
      vals.length = l.length ∧
        (∀ c ∈ vals, c.data.length = n ∧ c.frames.length = n) ∧
        SparseSet.Swf row ∧
        (∀ x, x ∈ row.indices ↔ x ∈ l.map Prod.fst ∨ x ∈ row0.indices) := by
  induction l with
  | nil =>
    intro row0 row vals hrow0 hall hidx h
    simp only [tableRemoveCells] at h
    injection h with h
    injection h with h1 h2
    subst h1
    subst h2
    exact ⟨rfl, fun c hc => absurd hc (List.not_mem_nil c), hrow0,
      fun x => by simp⟩
  | cons p rest ih =>
    intro row0 row vals hrow0 hall hidx h
    obtain ⟨id, col⟩ := p
    have hcol : col.data.length = n + 1 ∧ col.frames.length = n + 1 :=
      hall (id, col) (List.mem_cons_self _ _)
    have hd0 : idx < col.data.length := by rw [hcol.1]; omega
    have hf0 : idx < col.frames.length := by rw [hcol.2]; omega
    obtain ⟨cell, col', hsw, hdl, hfl⟩ := Column.swap_remove_success hd0 hf0
    simp only [tableRemoveCells] at h
    split at h
    · rename_i cell0 col'0 heq
      rw [hsw] at heq
      injection heq with heq
      injection heq with heq1 heq2
      injection heq1 with heq1
      subst heq1
      subst heq2
      split at h
      · rename_i row1 heq2
        unfold Row.insert_cell at heq2
        cases hins : SparseSet.insert row0 id cell with
        | none => rw [hins] at heq2; cases heq2
        | some pr =>
          obtain ⟨r0, s1⟩ := pr
          rw [hins] at heq2
          simp only [Option.map_some'] at heq2
          injection heq2 with heq2
          subst heq2
          obtain ⟨hwf1, hidx1, -⟩ := SparseSet.insert_wf hrow0 hins
          cases hrec : tableRemoveCells rest idx s1 with
          | none => rw [hrec] at h; cases h
          | some pr2 =>
            obtain ⟨vals', row2⟩ := pr2
            rw [hrec] at h
            simp only [Option.map_some'] at h
            injection h with h
            injection h with h1 h2
            subst h1
            subst h2
            obtain ⟨hlen, hcls, hswf, hmem⟩ :=
              ih hwf1 (fun q hq => hall q (List.mem_cons_of_mem _ hq)) hidx hrec
            refine ⟨by simp [hlen], ?_, hswf, ?_⟩
            · intro c hc
              rcases List.mem_cons.mp hc with hc | hc
              · subst hc
                constructor
                · omega
                · omega
              · exact hcls c hc
            · intro x
              rw [hmem x, hidx1]
              by_cases hkin : id ∈ row0.indices
              · rw [if_pos hkin]
                simp only [List.map_cons, List.mem_cons]
                constructor
                · intro hx
                  tauto
                · rintro ((rfl | hx) | hx)
                  · exact Or.inr hkin
                  · exact Or.inl hx
                  · exact Or.inr hx
              · rw [if_neg hkin]
                simp only [List.mem_append, List.mem_singleton,
                  List.map_cons, List.mem_cons]
                tauto
      · rename_i heq2
        cases h
    · rename_i col'0 heq
      rw [hsw] at heq
      injection heq with heq
      injection heq with heq1 heq2
      cases heq1
    · rename_i heq
      rw [hsw] at heq
      cases heq

/-- Folding inserts over a coherent accumulator stays coherent; keys and
payload provenance accumulate. -/
theorem sparseSet_foldInsert_wf {l : List (Nat × V)} :
    ∀ {s0 s : SparseSet V}, SparseSet.Swf s0 →
      l.foldlM (fun s kv => (s.insert kv.1 kv.2).map Prod.snd) s0 = some s →
      SparseSet.Swf s ∧
        (∀ x, x ∈ s.indices ↔ x ∈ l.map Prod.fst ∨ x ∈ s0.indices) ∧
        (∀ w ∈ s.values, w ∈ l.map Prod.snd ∨ w ∈ s0.values) := by
  induction l with
  | nil =>
    intro s0 s h0 h
    simp only [List.foldlM_nil] at h
    injection h with h
    subst h
    exact ⟨h0, fun x => by simp, fun w hw => Or.inr hw⟩
  | cons kv rest ih =>
    intro s0 s h0 h
    obtain ⟨k, v⟩ := kv
    rw [List.foldlM_cons] at h
    cases hins : SparseSet.insert s0 k v with
    | none => simp only [hins, Option.map_none'] at h; cases h
    | some pr =>
      obtain ⟨r, s1⟩ := pr
      simp only [hins, Option.map_some', Option.some_bind] at h
      obtain ⟨h1, h2, -⟩ := SparseSet.insert_wf h0 hins
      have hval1 := SparseSet.insert_values_sub hins
      obtain ⟨hswf, hmem, hvals⟩ := ih h1 h
      refine ⟨hswf, ?_, ?_⟩
      · intro x
        rw [hmem x, h2]
        by_cases hk : k ∈ s0.indices
        · rw [if_pos hk]
          simp only [List.map_cons, List.mem_cons]
          constructor
          · intro hx
            tauto
          · rintro ((rfl | hx) | hx)
            · exact Or.inr hk
            · exact Or.inl hx
            · exact Or.inr hx
        · rw [if_neg hk]
          simp only [List.mem_append, List.mem_singleton, List.map_cons,
            List.mem_cons]
          tauto
      · intro w hw
        rcases hvals w hw with h1' | h1'
        · exact Or.inl (List.mem_cons_of_mem _ h1')
        · rcases hval1 w h1' with h2' | h2'
          · exact Or.inr h2'
          · exact Or.inl (h2' ▸ List.mem_cons_self _ _)

/-- `SparseSet::from_iter` builds a coherent set with exactly the input keys
and payloads drawn from the input. -/
theorem sparseSet_fromList_wf {l : List (Nat × V)} {s : SparseSet V}
    (h : SparseSet.fromList l = some s) :
    SparseSet.Swf s ∧ (∀ x, x ∈ s.indices ↔ x ∈ l.map Prod.fst) ∧
      (∀ w ∈ s.values, w ∈ l.map Prod.snd) := by
  obtain ⟨h1, h2, h3⟩ := sparseSet_foldInsert_wf SparseSet.Swf.new h
  refine ⟨h1, fun x => ?_, fun w hw => ?_⟩
  · rw [h2 x]
    simp [SparseSet.new]
  · rcases h3 w hw with h' | h'
    · exact h'
    · simp [SparseSet.new] at h'

/-- `Row::into_table` produces a well-formed one-entity table keyed exactly
by the row's component ids. -/
theorem Row.into_table_wf {r : Row} {e : Entity} {t : Table}
    (hr : SparseSet.Swf r) (h : r.into_table e = some t) :
    TableWf t ∧ t.entities = [e] ∧
      (∀ x, x ∈ t.columns.indices ↔ x ∈ r.indices) := by
  unfold Row.into_table at h
  cases hfl : SparseSet.fromList (r.pairs.map fun p => (p.1, Column.ofCell p.2)) with
  | none => rw [hfl] at h; cases h
  | some cols =>
    rw [hfl] at h
    simp only [Option.map_some'] at h
    injection h with h
    subst h
    obtain ⟨h1, h2, h3⟩ := sparseSet_fromList_wf hfl
    have hkeys : ((r.pairs.map fun p => (p.1, Column.ofCell p.2)).map Prod.fst)
        = r.indices := by
      rw [List.map_map]
      have hcomp : (Prod.fst ∘ fun p : Nat × TableCell =>
          (p.1, Column.ofCell p.2)) = Prod.fst := rfl
      rw [hcomp]
      unfold SparseSet.pairs
      exact List.map_fst_zip _ _ (le_of_eq hr.1)
    refine ⟨⟨List.nodup_singleton e, h1.1, h1.nodup, ?_⟩, rfl, ?_⟩
    · intro c hc
      have := h3 c hc
      rw [List.map_map] at this
      obtain ⟨q, hq, hqc⟩ := List.mem_map.mp this
      simp only [Function.comp] at hqc
      subst hqc
      simp [Column.ofCell]
    · intro x
      have := h2 x
      rw [hkeys] at this
      exact this

/-- `Table::add_entity` on a fresh entity appends it to the index and
extends every column by one cell. -/
theorem Table.add_entity_aligned {t : Table} {e : Entity} {row : Row} {t' : Table}
    (hwf : TableWf t) (hnew : e ∉ t.entities)
    (h : t.add_entity e row = some t') :
    TableWf t' ∧ t'.entities = t.entities ++ [e] ∧
      t'.columns.indices = t.columns.indices ∧
      t'.columns.sparse = t.columns.sparse := by
  simp only [Table.add_entity] at h
  cases hadd : tableAddCells (t.columns.indices.zip t.columns.values) row with
  | none => rw [hadd] at h; cases h
  | some vals =>
    rw [hadd] at h
    simp only [Option.map_some'] at h
    injection h with h
    subst h
    have hcont : t.entities.contains e = false := by
      simpa using hnew
    have hziplen : (t.columns.indices.zip t.columns.values).length
        = t.columns.values.length := by
      rw [List.length_zip, hwf.2.1]
      omega
    have hdrop : t.columns.values.drop
        (t.columns.indices.zip t.columns.values).length = [] := by
      rw [hziplen]
      exact List.drop_length _
    have hall : ∀ p ∈ t.columns.indices.zip t.columns.values,
        p.2.data.length = t.entities.length ∧
        p.2.frames.length = t.entities.length := by
      intro p hp
      exact hwf.2.2.2 p.2 (List.of_mem_zip hp).2
    obtain ⟨hlen, hcols⟩ := tableAddCells_spec hall hadd
    have hif : (if t.entities.contains e = true then t.entities
        else t.entities ++ [e]) = t.entities ++ [e] := by
      rw [hcont]
      simp
    refine ⟨⟨?_, ?_, hwf.2.2.1, ?_⟩, ?_, rfl, rfl⟩
    · simp only [hif]
      exact listNodup_concat hwf.1 hnew
    · simp only [hdrop, List.append_nil]
      rw [hlen, hziplen, hwf.2.1]
    · intro c hc
      simp only [hdrop, List.append_nil] at hc
      have := hcols c hc
      simp only [hif, List.length_append, List.length_singleton]
      exact this
    · simp only [hif]

/-- `Table::remove_entity` on a present entity: swap-removes its index
entry, shortens every column by one, and collects a coherent bag keyed by
exactly the table's column ids. -/
theorem Table.remove_entity_aligned {t : Table} {e : Entity} {row : Row} {t' : Table}
    (hwf : TableWf t) (h : t.remove_entity e = some (some (row, t'))) :
    TableWf t' ∧ t'.entities.length + 1 = t.entities.length ∧
      (∀ x, x ∈ t'.entities ↔ x ∈ t.entities ∧ x ≠ e) ∧
      t'.columns.indices = t.columns.indices ∧
      t'.columns.sparse = t.columns.sparse ∧
      SparseSet.Swf row ∧
      (∀ x, x ∈ row.indices ↔ x ∈ t.columns.indices) := by
  simp only [Table.remove_entity] at h
  split at h
  · rename_i hfind
    injection h with h
    cases h
  · rename_i idx hfind
    split at h
    · rename_i hsw
      cases h
    · rename_i x entities' hsw
      cases hrem : tableRemoveCells (t.columns.indices.zip t.columns.values)
          idx Row.new with
      | none => rw [hrem] at h; cases h
      | some pr =>
        obtain ⟨vals, row2⟩ := pr
        rw [hrem] at h
        simp only [Option.map_some'] at h
        injection h with h
        injection h with h
        injection h with hr ht
        subst hr
        subst ht
        obtain ⟨hidxlt, hidxval⟩ := listFindIdx_beq_spec hfind
        have hx : x = e := by
          obtain ⟨hi, last, -, hxval, -, -⟩ := listSwapRemove_spec hsw
          have : t.entities[idx]? = some x := by
            rw [List.getElem?_eq_getElem hi, ← hxval]
          rw [this] at hidxval
          injection hidxval
        subst hx
        have hziplen : (t.columns.indices.zip t.columns.values).length
            = t.columns.values.length := by
          rw [List.length_zip, hwf.2.1]
          omega
        have hdrop : t.columns.values.drop
            (t.columns.indices.zip t.columns.values).length = [] := by
          rw [hziplen]
          exact List.drop_length _
        have hn : t.entities.length = (t.entities.length - 1) + 1 := by omega
        have hall : ∀ p ∈ t.columns.indices.zip t.columns.values,
            p.2.data.length = (t.entities.length - 1) + 1 ∧
            p.2.frames.length = (t.entities.length - 1) + 1 := by
          intro p hp
          have := hwf.2.2.2 p.2 (List.of_mem_zip hp).2
          omega
        obtain ⟨hlen, hcls, hswf, hmem⟩ := tableRemoveCells_spec
          SparseSet.Swf.new hall (by omega) hrem
        have helen : entities'.length + 1 = t.entities.length :=
          listSwapRemove_length hsw
        obtain ⟨hnd', hmem'⟩ := listSwapRemove_nodup_mem hwf.1 hsw
        refine ⟨⟨hnd', ?_, hwf.2.2.1, ?_⟩, helen, hmem', rfl, rfl, hswf, ?_⟩
        · simp only [hdrop, List.append_nil]
          rw [hlen, hziplen, hwf.2.1]
        · intro c hc
          simp only [hdrop, List.append_nil] at hc
          have h5 := hcls c hc
          refine ⟨?_, ?_⟩
          · show c.data.length = entities'.length
            omega
          · show c.frames.length = entities'.length
            omega
        · intro x
          rw [hmem x]
          have hzipfst : (t.columns.indices.zip t.columns.values).map Prod.fst
              = t.columns.indices :=
            List.map_fst_zip _ _ (le_of_eq hwf.2.1)
          rw [hzipfst]
          simp [Row.new, SparseSet.new]

/-- Entries after an insert, without a key-uniqueness assumption: the
inserted pair or an old entry. -/
theorem alistInsert_mem_weak [DecidableEq κ] {l : List (κ × ν)} {k : κ}
    {v : ν} : ∀ p ∈ alistInsert l k v, p = (k, v) ∨ p ∈ l := by
  induction l with
  | nil =>
    intro p hp
    simp only [alistInsert, List.mem_singleton] at hp
    exact Or.inl hp
  | cons q rest ih =>
    obtain ⟨qk, qv⟩ := q
    intro p hp
    by_cases hq : qk = k
    · subst hq
      rw [alistInsert_cons_self] at hp
      rcases List.mem_cons.mp hp with hp | hp
      · exact Or.inl hp
      · exact Or.inr (List.mem_cons_of_mem _ hp)
    · simp only [alistInsert, if_neg hq, List.mem_cons] at hp
      rcases hp with hp | hp
      · subst hp
        exact Or.inr (List.mem_cons_self _ _)
      · rcases ih p hp with h1 | h1
        · exact Or.inl h1
        · exact Or.inr (List.mem_cons_of_mem _ h1)

/-- A successful removal's payload was an entry of the list. -/
theorem alistRemove_mem_self [DecidableEq κ] {l : List (κ × ν)} {k : κ}
    {v : ν} {l' : List (κ × ν)} (h : alistRemove l k = some (v, l')) :
    (k, v) ∈ l := by
  induction l generalizing v l' with
  | nil => cases h
  | cons p rest ih =>
    obtain ⟨pk, pv⟩ := p
    by_cases hp : pk = k
    · subst hp
      simp only [alistRemove, if_pos rfl, Option.some.injEq, Prod.mk.injEq] at h
      obtain ⟨rfl, -⟩ := h
      exact List.mem_cons_self _ _
    · simp only [alistRemove, if_neg hp] at h
      cases hr : alistRemove rest k with
      | none => rw [hr] at h; cases h
      | some pr =>
        obtain ⟨v0, rest'⟩ := pr
        rw [hr] at h
        simp only [Option.map_some', Option.some.injEq, Prod.mk.injEq] at h
        obtain ⟨rfl, -⟩ := h
        exact List.mem_cons_of_mem _ (ih hr)

/-- `findIdx?` succeeds on a member. -/
theorem listFindIdx_beq_of_mem [DecidableEq α] {l : List α} {e : α}
    (h : e ∈ l) : ∀ i, ∃ idx, l.findIdx? (fun x => x == e) i = some idx := by
  induction l with
  | nil => cases h
  | cons x xs ih =>
    intro i
    rw [List.findIdx?_cons]
    by_cases hx : (x == e) = true
    · rw [if_pos hx]
      exact ⟨i, rfl⟩
    · rw [if_neg hx]
      have hxe : e ∈ xs := by
        rcases List.mem_cons.mp h with h1 | h1
        · rw [beq_iff_eq] at hx
          exact absurd h1.symm hx
        · exact h1
      obtain ⟨idx, hidx⟩ := ih hxe (i + 1)
      exact ⟨idx, hidx⟩

/-- `Table::remove_entity` reports a missing entity only when the entity is
really absent from the index. -/
theorem Table.remove_entity_some_none {t : Table} {e : Entity}
    (h : t.remove_entity e = some none) : e ∉ t.entities := by
  simp only [Table.remove_entity] at h
  split at h
  · rename_i hfind
    intro hmem
    obtain ⟨idx, hidx⟩ := listFindIdx_beq_of_mem hmem 0
    rw [hfind] at hidx
    cases hidx
  · rename_i idx hfind
    split at h
    · cases h
    · rename_i x ents hsw
      cases hrc : tableRemoveCells (t.columns.indices.zip t.columns.values)
          idx Row.new with
      | none => rw [hrc] at h; cases h
      | some pr =>
        rw [hrc] at h
        simp only [Option.map_some'] at h
        injection h with h
        cases h

/-- Under the registry invariant, an entity absent from the entity map is
absent from every table. -/
theorem ArchetypesWf.not_in_table {A : Archetypes} (hA : ArchetypesWf A)
    {e : Entity} (hlk : alistLookup A.entity_map e = none) :
    ∀ (i : Nat) (arch : Archetype),
      A.archetypes[i]? = some arch → e ∉ arch.table.entities := by
  intro i arch hget hmem
  have hi : i < A.archetypes.length := (List.getElem?_eq_some.mp hget).1
  have h3 := hA.2.2.1 i (List.mem_range.mpr hi)
  rw [hget] at h3
  have h4 : alistLookup A.entity_map e = some i := h3 e hmem
  rw [hlk] at h4
  cases h4

/-- The registry invariant subsumes the spec's table alignment. -/
theorem ArchetypesWf.aligned {A : Archetypes} (hA : ArchetypesWf A) :
    TableAligned A :=
  fun a ha c hc => (hA.1 a ha).2.2.2 c hc

/-- The per-component add loop keeps the bag coherent. -/
theorem addComponentsLoop_wf {frame : Frame}
    {l : List (ComponentId × TableCell)} :
    ∀ {row row' : Row}, SparseSet.Swf row →
      Archetypes.addComponentsLoop frame l row = some row' →
      SparseSet.Swf row' := by
  induction l with
  | nil =>
    intro row row' hrow h
    simp only [Archetypes.addComponentsLoop] at h
    injection h with h
    subst h
    exact hrow
  | cons p rest ih =>
    intro row row' hrow h
    obtain ⟨id, cell⟩ := p
    simp only [Archetypes.addComponentsLoop] at h
    split at h
    · rename_i row1 heq
      unfold Row.insert_cell at heq
      cases hins : SparseSet.insert row id
          (if row.contains_id id then cell.modify frame else cell.add frame) with
      | none => rw [hins] at heq; cases heq
      | some pr =>
        obtain ⟨r0, s1⟩ := pr
        rw [hins] at heq
        simp only [Option.map_some'] at heq
        injection heq with heq
        subst heq
        exact ih (SparseSet.insert_wf hrow hins).1 h
    · rename_i heq
      cases h

/-- The per-component remove loop keeps the bag coherent. -/
theorem removeComponentsLoop_wf {l : List ComponentId} :
    ∀ {row row' : Row}, SparseSet.Swf row →
      Archetypes.removeComponentsLoop l row = some row' →
      SparseSet.Swf row' := by
  induction l with
  | nil =>
    intro row row' hrow h
    simp only [Archetypes.removeComponentsLoop] at h
    injection h with h
    subst h
    exact hrow
  | cons id rest ih =>
    intro row row' hrow h
    simp only [Archetypes.removeComponentsLoop] at h
    split at h
    · rename_i heq
      cases h
    · rename_i r0 row1 heq
      exact ih (SparseSet.remove_wf hrow heq).1 h

/-- `Archetypes::remove_entity` preserves the registry invariant, clears
the entity's map entry, and hands back a coherent bag. -/
theorem Archetypes.remove_entity_wf {A : Archetypes} {e : Entity}
    {res : Option (ArchetypeId × Row)} {A' : Archetypes}
    (hA : ArchetypesWf A) (h : A.remove_entity e = some (res, A')) :
    ArchetypesWf A' ∧ alistLookup A'.entity_map e = none ∧
      ∀ p, res = some p → SparseSet.Swf p.2 := by
  simp only [Archetypes.remove_entity] at h
  split at h
  · rename_i hremnone
    injection h with h
    injection h with h1 h2
    subst h1
    subst h2
    exact ⟨hA, alistLookup_eq_none_of_remove_none hremnone,
      fun p hp => Option.noConfusion hp⟩
  · rename_i aid map' hremove
    split at h
    · cases h
    · rename_i arch harch
      split at h
      · cases h
      · rename_i hremtab
        have hpmem : (e, aid) ∈ A.entity_map := alistRemove_mem_self hremove
        have h2 := hA.2.1 (e, aid) hpmem
        rw [harch] at h2
        have hmem_e : e ∈ arch.table.entities := h2
        exact absurd hmem_e (Table.remove_entity_some_none hremtab)
      · rename_i row table' hremtab
        injection h with h
        injection h with h1 h2
        subst h1
        subst h2
        have hi : aid < A.archetypes.length := (List.getElem?_eq_some.mp harch).1
        have harchmem : arch ∈ A.archetypes := List.getElem?_mem harch
        have htwf : TableWf arch.table := hA.1 arch harchmem
        obtain ⟨htwf', hlen', hmem', hcolidx, hcolsparse, hswf_row, hrowkeys⟩ :=
          Table.remove_entity_aligned htwf hremtab
        have hnd4 : (A.entity_map.map Prod.fst).Nodup := hA.2.2.2.1
        have hsub := alistRemove_sublist hremove
        have hmapnd : (map'.map Prod.fst).Nodup :=
          List.Nodup.sublist (hsub.map Prod.fst) hnd4
        have hlknone : alistLookup map' e = none :=
          alistRemove_lookup_self hnd4 hremove
        have hlkother := alistRemove_lookup_other hremove
        have hlk_e : alistLookup A.entity_map e = some aid :=
          alistLookup_of_mem hnd4 (alistRemove_mem_self hremove)
        have hget' : ∀ j : Nat,
            (A.archetypes.set aid { arch with table := table' })[j]? =
              if aid = j then some { arch with table := table' }
              else A.archetypes[j]? := by
          intro j
          rw [List.getElem?_set]
          by_cases hj : aid = j
          · rw [if_pos hj, if_pos hi, if_pos hj]
          · rw [if_neg hj, if_neg hj]
        refine ⟨⟨?_, ?_, ?_, hmapnd, ?_⟩, hlknone, ?_⟩
        · intro a ha
          have ha' : a ∈ A.archetypes.set aid { arch with table := table' } := ha
          rcases List.mem_or_eq_of_mem_set ha' with h1 | h1
          · exact hA.1 a h1
          · subst h1
            exact htwf'
        · intro p hp
          have hp' : p ∈ map' := hp
          have hpold : p ∈ A.entity_map := hsub.subset hp'
          have hpne : p.1 ≠ e := by
            intro hc
            exact (alistRemove_nodup_not_mem hnd4 hremove)
              (hc ▸ List.mem_map_of_mem Prod.fst hp')
          have h2 := hA.2.1 p hpold
          show optSat ((A.archetypes.set aid { arch with table := table' })[p.2]?)
            (fun arch => p.1 ∈ arch.table.entities)
          rw [hget' p.2]
          by_cases hpa : aid = p.2
          · rw [if_pos hpa]
            rw [← hpa, harch] at h2
            exact (hmem' p.1).mpr ⟨h2, hpne⟩
          · rw [if_neg hpa]
            exact h2
        · intro i hi2
          have hi2' : i < (A.archetypes.set aid
              { arch with table := table' }).length := List.mem_range.mp hi2
          rw [List.length_set] at hi2'
          have h3 := hA.2.2.1 i (List.mem_range.mpr hi2')
          show optSat ((A.archetypes.set aid { arch with table := table' })[i]?)
            (fun arch => ∀ e' ∈ arch.table.entities, alistLookup map' e' = some i)
          rw [hget' i]
          by_cases hia : aid = i
          · rw [if_pos hia]
            rw [← hia, harch] at h3
            intro e' he'
            obtain ⟨he'old, he'ne⟩ := (hmem' e').mp he'
            have hlk := h3 e' he'old
            rw [hlkother e' he'ne, hlk, hia]
          · rw [if_neg hia]
            cases hgi : A.archetypes[i]? with
            | none =>
              rw [hgi] at h3
              exact h3
            | some archi =>
              rw [hgi] at h3
              intro e' he'
              have hlk := h3 e' he'
              have he'ne : e' ≠ e := by
                intro hc
                subst hc
                rw [hlk_e] at hlk
                injection hlk with hlk
                exact hia hlk
              rw [hlkother e' he'ne]
              exact hlk
        · intro q hq
          have hq' : q ∈ A.archetype_map := hq
          have h5 := hA.2.2.2.2 q hq'
          show optSat ((A.archetypes.set aid { arch with table := table' })[q.2]?)
            (fun arch => sameKeySet q.1 arch.table.columns.indices)
          rw [hget' q.2]
          by_cases hqa : aid = q.2
          · rw [if_pos hqa]
            rw [← hqa, harch] at h5
            show sameKeySet q.1 table'.columns.indices
            rw [hcolidx]
            exact h5
          · rw [if_neg hqa]
            exact h5
        · intro p hp
          injection hp with hp
          rw [← hp]
          exact hswf_row

/-- Placing a not-yet-mapped entity into an existing archetype's table (the
shared tail of `add_entity` and `add_entity_inner`) preserves the registry
invariant. -/
theorem Archetypes.place_wf {A : Archetypes} {e : Entity} {aid : ArchetypeId}
    {arch : Archetype} {row : Row} {table' : Table}
    (hA : ArchetypesWf A) (hlk : alistLookup A.entity_map e = none)
    (harch : A.archetypes[aid]? = some arch)
    (hadd : arch.table.add_entity e row = some table') :
    ArchetypesWf { A with
      archetypes := A.archetypes.set aid { arch with table := table' },
      entity_map := alistInsert A.entity_map e aid } := by
  have hi : aid < A.archetypes.length := (List.getElem?_eq_some.mp harch).1
  have harchmem : arch ∈ A.archetypes := List.getElem?_mem harch
  have htwf : TableWf arch.table := hA.1 arch harchmem
  have hnew : e ∉ arch.table.entities :=
    ArchetypesWf.not_in_table hA hlk aid arch harch
  obtain ⟨htwf', hents', hcolidx, hcolsparse⟩ :=
    Table.add_entity_aligned htwf hnew hadd
  have hnd4 : (A.entity_map.map Prod.fst).Nodup := hA.2.2.2.1
  have hget' : ∀ j : Nat,
      (A.archetypes.set aid { arch with table := table' })[j]? =
        if aid = j then some { arch with table := table' }
        else A.archetypes[j]? := by
    intro j
    rw [List.getElem?_set]
    by_cases hj : aid = j
    · rw [if_pos hj, if_pos hi, if_pos hj]
    · rw [if_neg hj, if_neg hj]
  refine ⟨?_, ?_, ?_, alistInsert_keys_nodup hnd4 e aid, ?_⟩
  · intro a ha
    have ha' : a ∈ A.archetypes.set aid { arch with table := table' } := ha
    rcases List.mem_or_eq_of_mem_set ha' with h1 | h1
    · exact hA.1 a h1
    · subst h1
      exact htwf'
  · intro p hp
    have hp' : p ∈ alistInsert A.entity_map e aid := hp
    show optSat ((A.archetypes.set aid { arch with table := table' })[p.2]?)
      (fun arch => p.1 ∈ arch.table.entities)
    rw [hget' p.2]
    rcases alistInsert_mem_weak p hp' with h1 | h1
    · subst h1
      rw [if_pos rfl]
      show e ∈ table'.entities
      rw [hents']
      exact List.mem_append_right _ (List.mem_singleton_self e)
    · have h2 := hA.2.1 p h1
      by_cases hpa : aid = p.2
      · rw [if_pos hpa]
        rw [← hpa, harch] at h2
        show p.1 ∈ table'.entities
        rw [hents']
        exact List.mem_append_left _ h2
      · rw [if_neg hpa]
        exact h2
  · intro i hi2
    have hi2' : i < (A.archetypes.set aid
        { arch with table := table' }).length := List.mem_range.mp hi2
    rw [List.length_set] at hi2'
    have h3 := hA.2.2.1 i (List.mem_range.mpr hi2')
    show optSat ((A.archetypes.set aid { arch with table := table' })[i]?)
      (fun arch => ∀ e' ∈ arch.table.entities,
        alistLookup (alistInsert A.entity_map e aid) e' = some i)
    rw [hget' i]
    by_cases hia : aid = i
    · rw [if_pos hia]
      rw [← hia, harch] at h3
      intro e' he'
      have he'' : e' ∈ table'.entities := he'
      rw [hents'] at he''
      rcases List.mem_append.mp he'' with h4 | h4
      · have he'ne : e' ≠ e := fun hc => hnew (hc ▸ h4)
        rw [alistLookup_insert_other _ _ _ _ he'ne, h3 e' h4, hia]
      · rw [List.mem_singleton.mp h4, alistLookup_insert_self, hia]
    · rw [if_neg hia]
      cases hgi : A.archetypes[i]? with
      | none =>
        rw [hgi] at h3
        exact h3
      | some archi =>
        rw [hgi] at h3
        intro e' he'
        have hlk2 := h3 e' he'
        have he'ne : e' ≠ e := by
          intro hc
          subst hc
          rw [hlk] at hlk2
          cases hlk2
        rw [alistLookup_insert_other _ _ _ _ he'ne]
        exact hlk2
  · intro q hq
    have hq' : q ∈ A.archetype_map := hq
    have h5 := hA.2.2.2.2 q hq'
    show optSat ((A.archetypes.set aid { arch with table := table' })[q.2]?)
      (fun arch => sameKeySet q.1 arch.table.columns.indices)
    rw [hget' q.2]
    by_cases hqa : aid = q.2
    · rw [if_pos hqa]
      rw [← hqa, harch] at h5
      show sameKeySet q.1 table'.columns.indices
      rw [hcolidx]
      exact h5
    · rw [if_neg hqa]
      exact h5

/-- Creating a fresh archetype from a coherent bag (the fresh path of
`add_entity_inner`) preserves the registry invariant. -/
theorem Archetypes.fresh_wf {A : Archetypes} {e : Entity} {row : Row}
    {ids : List ComponentId} {table : Table} {bits : FixedBitSet}
    (hA : ArchetypesWf A) (hlk : alistLookup A.entity_map e = none)
    (hids : ∀ x, x ∈ ids ↔ x ∈ row.indices)
    (hrow : SparseSet.Swf row) (htab : row.into_table e = some table) :
    ArchetypesWf { A with
      archetypes := A.archetypes ++ [⟨A.archetypes.length, table, bits⟩],
      entity_map := alistInsert A.entity_map e A.archetypes.length,
      archetype_map := alistInsert A.archetype_map ids A.archetypes.length } := by
  obtain ⟨htwf, hents, hkeys⟩ := Row.into_table_wf hrow htab
  have hnd4 : (A.entity_map.map Prod.fst).Nodup := hA.2.2.2.1
  have hget' : ∀ j : Nat,
      (A.archetypes ++ [(⟨A.archetypes.length, table, bits⟩ : Archetype)])[j]? =
        if j = A.archetypes.length
          then some (⟨A.archetypes.length, table, bits⟩ : Archetype)
          else A.archetypes[j]? := by
    intro j
    rw [List.getElem?_append]
    by_cases hj : j < A.archetypes.length
    · rw [if_pos hj, if_neg (by omega)]
    · rw [if_neg hj]
      by_cases hj2 : j = A.archetypes.length
      · rw [if_pos hj2, hj2]
        simp
      · rw [if_neg hj2]
        have h1 : [(⟨A.archetypes.length, table, bits⟩ :
            Archetype)][j - A.archetypes.length]? = none := by
          rw [List.getElem?_eq_none_iff]
          simp only [List.length_singleton]
          omega
        have h2 : A.archetypes[j]? = none := by
          rw [List.getElem?_eq_none_iff]
          omega
        rw [h1, h2]
  refine ⟨?_, ?_, ?_, alistInsert_keys_nodup hnd4 e A.archetypes.length, ?_⟩
  · intro a ha
    have ha' : a ∈ A.archetypes ++
        [(⟨A.archetypes.length, table, bits⟩ : Archetype)] := ha
    rcases List.mem_append.mp ha' with h1 | h1
    · exact hA.1 a h1
    · rw [List.mem_singleton.mp h1]
      exact htwf
  · intro p hp
    have hp' : p ∈ alistInsert A.entity_map e A.archetypes.length := hp
    show optSat ((A.archetypes ++
        [(⟨A.archetypes.length, table, bits⟩ : Archetype)])[p.2]?)
      (fun arch => p.1 ∈ arch.table.entities)
    rw [hget' p.2]
    rcases alistInsert_mem_weak p hp' with h1 | h1
    · subst h1
      rw [if_pos rfl]
      show e ∈ table.entities
      rw [hents]
      exact List.mem_singleton_self e
    · have h2 := hA.2.1 p h1
      cases hgp : A.archetypes[p.2]? with
      | none =>
        rw [hgp] at h2
        exact h2.elim
      | some archp =>
        have hplt : p.2 < A.archetypes.length :=
          (List.getElem?_eq_some.mp hgp).1
        have hne : ¬ p.2 = A.archetypes.length := Nat.ne_of_lt hplt
        rw [if_neg hne]
        rw [hgp] at h2
        exact h2
  · intro i hi2
    have hi2' : i < (A.archetypes ++
        [(⟨A.archetypes.length, table, bits⟩ : Archetype)]).length :=
      List.mem_range.mp hi2
    rw [List.length_append, List.length_singleton] at hi2'
    show optSat ((A.archetypes ++
        [(⟨A.archetypes.length, table, bits⟩ : Archetype)])[i]?)
      (fun arch => ∀ e' ∈ arch.table.entities,
        alistLookup (alistInsert A.entity_map e A.archetypes.length) e'
          = some i)
    rw [hget' i]
    by_cases hia : i = A.archetypes.length
    · rw [if_pos hia]
      intro e' he'
      have he'' : e' ∈ table.entities := he'
      rw [hents] at he''
      rw [List.mem_singleton.mp he'', alistLookup_insert_self, hia]
    · rw [if_neg hia]
      have hilt : i < A.archetypes.length := by omega
      have h3 := hA.2.2.1 i (List.mem_range.mpr hilt)
      cases hgi : A.archetypes[i]? with
      | none =>
        rw [hgi] at h3
        exact h3
      | some archi =>
        rw [hgi] at h3
        intro e' he'
        have hlk2 := h3 e' he'
        have he'ne : e' ≠ e := by
          intro hc
          subst hc
          rw [hlk] at hlk2
          cases hlk2
        rw [alistLookup_insert_other _ _ _ _ he'ne]
        exact hlk2
  · intro q hq
    have hq' : q ∈ alistInsert A.archetype_map ids A.archetypes.length := hq
    show optSat ((A.archetypes ++
        [(⟨A.archetypes.length, table, bits⟩ : Archetype)])[q.2]?)
      (fun arch => sameKeySet q.1 arch.table.columns.indices)
    rw [hget' q.2]
    rcases alistInsert_mem_weak q hq' with h1 | h1
    · subst h1
      rw [if_pos rfl]
      show sameKeySet ids table.columns.indices
      constructor
      · intro x hx
        exact (hkeys x).mpr ((hids x).mp hx)
      · intro x hx
        exact (hids x).mpr ((hkeys x).mp hx)
    · have h5 := hA.2.2.2.2 q h1
      cases hgq : A.archetypes[q.2]? with
      | none =>
        rw [hgq] at h5
        exact h5.elim
      | some archq =>
        have hqlt : q.2 < A.archetypes.length :=
          (List.getElem?_eq_some.mp hgq).1
        have hne : ¬ q.2 = A.archetypes.length := Nat.ne_of_lt hqlt
        rw [if_neg hne]
        rw [hgq] at h5
        exact h5

/-- `Row::insert_cell` keeps the bag coherent. -/
theorem Row.insert_cell_wf {r : Row} {id : ComponentId} {cell : TableCell}
    {r' : Row} (hr : SparseSet.Swf r) (h : r.insert_cell id cell = some r') :
    SparseSet.Swf r' := by
  unfold Row.insert_cell at h
  cases hins : SparseSet.insert r id cell with
  | none => rw [hins] at h; cases h
  | some pr =>
    obtain ⟨r0, s1⟩ := pr
    rw [hins] at h
    simp only [Option.map_some'] at h
    injection h with h
    rw [← h]
    exact (SparseSet.insert_wf hr hins).1

/-- `Archetypes::add_entity_inner` preserves the registry invariant when
the entity is not yet mapped and the bag is coherent. -/
theorem Archetypes.add_entity_inner_wf {A : Archetypes} {e : Entity}
    {row : Row} {q : ArchetypeId × Archetypes} (hA : ArchetypesWf A)
    (hlk : alistLookup A.entity_map e = none) (hrow : SparseSet.Swf row)
    (h : A.add_entity_inner e row = some q) : ArchetypesWf q.2 := by
  simp only [Archetypes.add_entity_inner] at h
  split at h
  · rename_i aid hmap
    split at h
    · cases h
    · rename_i arch harch
      cases hadd : arch.table.add_entity e row with
      | none => rw [hadd] at h; cases h
      | some table' =>
        rw [hadd] at h
        simp only [Option.map_some'] at h
        injection h with h
        rw [← h]
        exact Archetypes.place_wf hA hlk harch hadd
  · rename_i hmap
    cases htab : row.into_table e with
    | none => rw [htab] at h; cases h
    | some table =>
      rw [htab] at h
      simp only [Option.map_some'] at h
      injection h with h
      rw [← h]
      exact Archetypes.fresh_wf hA hlk (fun x => sortNat_mem x row.ids)
        hrow htab

/-- `Archetypes::add_entity` preserves the registry invariant. -/
theorem Archetypes.add_entity_wf {A : Archetypes} {e : Entity}
    {q : ArchetypeId × Archetypes} (hA : ArchetypesWf A)
    (h : A.add_entity e = some q) : ArchetypesWf q.2 := by
  simp only [Archetypes.add_entity] at h
  split at h
  · rename_i aid hmap
    injection h with h
    rw [← h]
    exact hA
  · rename_i hlk
    split at h
    · cases h
    · rename_i arch harch
      cases hadd : arch.table.add_entity e Row.new with
      | none => rw [hadd] at h; cases h
      | some table' =>
        rw [hadd] at h
        simp only [Option.map_some'] at h
        injection h with h
        rw [← h]
        exact Archetypes.place_wf hA hlk harch hadd

/-- `Archetypes::add_component` preserves the registry invariant. -/
theorem Archetypes.add_component_wf {A : Archetypes} {ty : Nat}
    {frame : Frame} {e : Entity} {v : Nat} {A2 : Archetypes}
    (hA : ArchetypesWf A) (h : A.add_component ty frame e v = some A2) :
    ArchetypesWf A2 := by
  simp only [Archetypes.add_component] at h
  split at h
  · cases h
  · rename_i id hid
    split at h
    · cases h
    · rename_i res A1 hrem
      obtain ⟨hA1, hlk1, hres⟩ := Archetypes.remove_entity_wf hA hrem
      have hrowwf : SparseSet.Swf
          (match res with | some p => p.2 | none => Row.new) := by
        cases res with
        | none => exact SparseSet.Swf.new
        | some p => exact hres p rfl
      split at h
      · cases h
      · rename_i row' hins
        have hrow' : SparseSet.Swf row' := Row.insert_cell_wf hrowwf hins
        cases hinner : A1.add_entity_inner e row' with
        | none => rw [hinner] at h; cases h
        | some pr =>
          rw [hinner] at h
          simp only [Option.map_some'] at h
          injection h with h
          rw [← h]
          exact Archetypes.add_entity_inner_wf hA1 hlk1 hrow' hinner

/-- `Archetypes::add_components` preserves the registry invariant. -/
theorem Archetypes.add_components_wf {A : Archetypes} {frame : Frame}
    {e : Entity} {components : Row} {A2 : Archetypes} (hA : ArchetypesWf A)
    (h : A.add_components frame e components = some A2) :
    ArchetypesWf A2 := by
  simp only [Archetypes.add_components] at h
  split at h
  · cases h
  · rename_i res A1 hrem
    obtain ⟨hA1, hlk1, hres⟩ := Archetypes.remove_entity_wf hA hrem
    have hrowwf : SparseSet.Swf
        (match res with | some p => p.2 | none => Row.new) := by
      cases res with
      | none => exact SparseSet.Swf.new
      | some p => exact hres p rfl
    split at h
    · cases h
    · rename_i row' hloop
      have hrow' : SparseSet.Swf row' := addComponentsLoop_wf hrowwf hloop
      cases hinner : A1.add_entity_inner e row' with
      | none => rw [hinner] at h; cases h
      | some pr =>
        rw [hinner] at h
        simp only [Option.map_some'] at h
        injection h with h
        rw [← h]
        exact Archetypes.add_entity_inner_wf hA1 hlk1 hrow' hinner

/-- `Archetypes::remove_component` preserves the registry invariant. -/
theorem Archetypes.remove_component_wf {A : Archetypes} {ty : Nat}
    {e : Entity} {A2 : Archetypes} (hA : ArchetypesWf A)
    (h : A.remove_component ty e = some A2) : ArchetypesWf A2 := by
  simp only [Archetypes.remove_component] at h
  split at h
  · cases h
  · rename_i id hid
    split at h
    · cases h
    · rename_i A1 hrem
      injection h with h
      rw [← h]
      exact (Archetypes.remove_entity_wf hA hrem).1
    · rename_i p A1 hrem
      obtain ⟨hA1, hlk1, hres⟩ := Archetypes.remove_entity_wf hA hrem
      split at h
      · cases h
      · rename_i r0 row' hremid
        have hrow' : SparseSet.Swf row' :=
          (SparseSet.remove_wf (hres p rfl) hremid).1
        cases hinner : A1.add_entity_inner e row' with
        | none => rw [hinner] at h; cases h
        | some pr =>
          rw [hinner] at h
          simp only [Option.map_some'] at h
          injection h with h
          rw [← h]
          exact Archetypes.add_entity_inner_wf hA1 hlk1 hrow' hinner

/-- `Archetypes::remove_components` preserves the registry invariant. -/
theorem Archetypes.remove_components_wf {A : Archetypes} {e : Entity}
    {components : List ComponentId} {A2 : Archetypes} (hA : ArchetypesWf A)
    (h : A.remove_components e components = some A2) : ArchetypesWf A2 := by
  simp only [Archetypes.remove_components] at h
  split at h
  · cases h
  · rename_i A1 hrem
    injection h with h
    rw [← h]
    exact (Archetypes.remove_entity_wf hA hrem).1
  · rename_i p A1 hrem
    obtain ⟨hA1, hlk1, hres⟩ := Archetypes.remove_entity_wf hA hrem
    split at h
    · cases h
    · rename_i row' hloop
      have hrow' : SparseSet.Swf row' :=
        removeComponentsLoop_wf (hres p rfl) hloop
      cases hinner : A1.add_entity_inner e row' with
      | none => rw [hinner] at h; cases h
      | some pr =>
        rw [hinner] at h
        simp only [Option.map_some'] at h
        injection h with h
        rw [← h]
        exact Archetypes.add_entity_inner_wf hA1 hlk1 hrow' hinner

/-- `World::spawn` preserves the registry invariant. -/
theorem World.spawn_wf {w : World} {p : Entity × World}
    (hw : ArchetypesWf w.archetypes) (h : w.spawn = some p) :
    ArchetypesWf p.2.archetypes := by
  simp only [World.spawn] at h
  cases hadd : w.archetypes.add_entity w.entities.spawn.1 with
  | none => rw [hadd] at h; cases h
  | some q =>
    rw [hadd] at h
    simp only [Option.map_some'] at h
    injection h with h
    rw [← h]
    exact Archetypes.add_entity_wf hw hadd

/-- `World::despawn` preserves the registry invariant. -/
theorem World.despawn_wf {w : World} {e : Entity}
    {p : Option (ArchetypeId × Row) × World}
    (hw : ArchetypesWf w.archetypes) (h : w.despawn e = some p) :
    ArchetypesWf p.2.archetypes := by
  simp only [World.despawn] at h
  cases hrem : w.archetypes.remove_entity e with
  | none => rw [hrem] at h; cases h
  | some q =>
    obtain ⟨res, A1⟩ := q
    rw [hrem] at h
    simp only [Option.map_some'] at h
    injection h with h
    rw [← h]
    exact (Archetypes.remove_entity_wf hw hrem).1

/-- C6: table alignment is an invariant of every reachable world state.
The registry invariant `ArchetypesWf` (well-formed tables, consistent
entity and archetype maps) holds in the initial world, implies the spec's
table alignment (`len(entities) = len(column)` for every column of every
archetype), and is preserved by every successful `spawn`, `despawn`,
`add_component`, `remove_component` and the batch variants
`add_components` / `remove_components`. -/
theorem table_alignment_invariant :
    ArchetypesWf World.new.archetypes ∧
    (∀ A : Archetypes, ArchetypesWf A → TableAligned A) ∧
    (∀ (w : World) (p : Entity × World), ArchetypesWf w.archetypes →
      w.spawn = some p → ArchetypesWf p.2.archetypes) ∧
    (∀ (w : World) (e : Entity) (p : Option (ArchetypeId × Row) × World),
      ArchetypesWf w.archetypes → w.despawn e = some p →
      ArchetypesWf p.2.archetypes) ∧
    (∀ (w : World) (ty : Nat) (e : Entity) (v : Nat) (w' : World),
      ArchetypesWf w.archetypes → w.add_component ty e v = some w' →
      ArchetypesWf w'.archetypes) ∧
    (∀ (w : World) (ty : Nat) (e : Entity) (w' : World),
      ArchetypesWf w.archetypes → w.remove_component ty e = some w' →
      ArchetypesWf w'.archetypes) ∧
    (∀ (A : Archetypes) (frame : Frame) (e : Entity) (components : Row)
      (A' : Archetypes), ArchetypesWf A →
      A.add_components frame e components = some A' → ArchetypesWf A') ∧
    (∀ (A : Archetypes) (e : Entity) (components : List ComponentId)
      (A' : Archetypes), ArchetypesWf A →
      A.remove_components e components = some A' → ArchetypesWf A') := by
  refine ⟨by decide, ?_, ?_, ?_, ?_, ?_, ?_, ?_⟩
  · exact fun A hA => hA.aligned
  · exact fun w p hw h => World.spawn_wf hw h
  · exact fun w e p hw h => World.despawn_wf hw h
  · intro w ty e v w' hw h
    simp only [World.add_component] at h
    cases ha : w.archetypes.add_component ty w.frame e v with
    | none => rw [ha] at h; cases h
    | some A2 =>
      rw [ha] at h
      simp only [Option.map_some'] at h
      injection h with h
      rw [← h]
      exact Archetypes.add_component_wf hw ha
  · intro w ty e w' hw h
    simp only [World.remove_component] at h
    cases ha : w.archetypes.remove_component ty e with
    | none => rw [ha] at h; cases h
    | some A2 =>
      rw [ha] at h
      simp only [Option.map_some'] at h
      injection h with h
      rw [← h]
      exact Archetypes.remove_component_wf hw ha
  · exact fun A frame e components A' hA h =>
      Archetypes.add_components_wf hA h
  · exact fun A e components A' hA h =>
      Archetypes.remove_components_wf hA h

/-- C6 witness: the initial world is aligned, and a concrete spawn from it
lands in an invariant-preserving state. -/
theorem table_alignment_invariant_witness :
    TableAligned World.new.archetypes ∧
    ArchetypesWf (World.mk
      ⟨[⟨0, ⟨[⟨0, 1⟩], ⟨[], [], ⟨[]⟩⟩⟩, ⟨[]⟩⟩], [([], 0)], [(⟨0, 1⟩, 0)],
        ⟨[], []⟩, ⟨[]⟩⟩
      ⟨⟨[]⟩, []⟩ ⟨1, [], [(0, 1)]⟩ 1).archetypes :=
  ⟨table_alignment_invariant.2.1 World.new.archetypes (by decide),
    table_alignment_invariant.2.2.1 World.new
      (⟨0, 1⟩, World.mk
        ⟨[⟨0, ⟨[⟨0, 1⟩], ⟨[], [], ⟨[]⟩⟩⟩, ⟨[]⟩⟩], [([], 0)], [(⟨0, 1⟩, 0)],
          ⟨[], []⟩, ⟨[]⟩⟩
        ⟨⟨[]⟩, []⟩ ⟨1, [], [(0, 1)]⟩ 1)
      (by decide) (by decide)⟩

end HiveEcs
